import Mathlib

/-!
# Crypt-Vault core: shallow embedding and verification

This file embeds the cryptographic core of `Crypt-Vault.cpp` — the SHA-256
digest, the AES-256 block cipher (key schedule, forward and inverse round
transforms), PKCS#7 padding, CBC chaining, and the hex codec — as executable
Lean definitions over `List Nat` (bytes, each `< 256`; 32-bit words `< 2^32`
with explicit `% 2^32` where C's `uint32` arithmetic wraps), and proves the
specification's testable properties about them.

The random IV source (`generateRandomBytes`) is modelled as an
`Option (List Nat)` parameter: `none` when the source fails, `some iv`
when it yields the 16 random bytes.  Fallible operations return `Option`:
`none` corresponds exactly to the C code's `return {}` failure paths.
-/

set_option maxRecDepth 4000

/-! ## SHA-256 (namespace `SHA256Impl` in the source) -/

namespace SHA256Impl

/-- The 64 SHA-256 round constants `K` (FIPS-180-4). -/
def K : List Nat :=
  [0x428a2f98,0x71374491,0xb5c0fbcf,0xe9b5dba5,0x3956c25b,0x59f111f1,0x923f82a4,0xab1c5ed5]
  ++ [0xd807aa98,0x12835b01,0x243185be,0x550c7dc3,0x72be5d74,0x80deb1fe,0x9bdc06a7,0xc19bf174]
  ++ [0xe49b69c1,0xefbe4786,0x0fc19dc6,0x240ca1cc,0x2de92c6f,0x4a7484aa,0x5cb0a9dc,0x76f988da]
  ++ [0x983e5152,0xa831c66d,0xb00327c8,0xbf597fc7,0xc6e00bf3,0xd5a79147,0x06ca6351,0x14292967]
  ++ [0x27b70a85,0x2e1b2138,0x4d2c6dfc,0x53380d13,0x650a7354,0x766a0abb,0x81c2c92e,0x92722c85]
  ++ [0xa2bfe8a1,0xa81a664b,0xc24b8b70,0xc76c51a3,0xd192e819,0xd6990624,0xf40e3585,0x106aa070]
  ++ [0x19a4c116,0x1e376c08,0x2748774c,0x34b0bcb5,0x391c0cb3,0x4ed8aa4a,0x5b9cca4f,0x682e6ff3]
  ++ [0x748f82ee,0x78a5636f,0x84c87814,0x8cc70208,0x90befffa,0xa4506ceb,0xbef9a3f7,0xc67178f2]

/-- 32-bit right rotation: `(x >> n) | (x << (32 - n))` on `uint32`. -/
def rotr (x n : Nat) : Nat := (x >>> n) ||| ((x <<< (32 - n)) % 4294967296)

/-- `ch(x,y,z) = (x & y) ^ (~x & z)`; `~x` on `uint32` is `x ^ 0xffffffff`. -/
def ch (x y z : Nat) : Nat := (x &&& y) ^^^ ((x ^^^ 4294967295) &&& z)

/-- `maj(x,y,z) = (x & y) ^ (x & z) ^ (y & z)`. -/
def maj (x y z : Nat) : Nat := (x &&& y) ^^^ (x &&& z) ^^^ (y &&& z)

/-- `sig0`: `rotr(x,2) ^ rotr(x,13) ^ rotr(x,22)`. -/
def sig0 (x : Nat) : Nat := rotr x 2 ^^^ rotr x 13 ^^^ rotr x 22

/-- `sig1`: `rotr(x,6) ^ rotr(x,11) ^ rotr(x,25)`. -/
def sig1 (x : Nat) : Nat := rotr x 6 ^^^ rotr x 11 ^^^ rotr x 25

/-- `gam0`: `rotr(x,7) ^ rotr(x,18) ^ (x >> 3)`. -/
def gam0 (x : Nat) : Nat := rotr x 7 ^^^ rotr x 18 ^^^ (x >>> 3)

/-- `gam1`: `rotr(x,17) ^ rotr(x,19) ^ (x >> 10)`. -/
def gam1 (x : Nat) : Nat := rotr x 17 ^^^ rotr x 19 ^^^ (x >>> 10)

/-- Merkle–Damgård padding: append `0x80`, zero bytes until the length is
`56 mod 64`, then the 64-bit big-endian bit length (each byte truncated to
8 bits, as the C cast to `unsigned char` does). -/
def padMsg (msg : List Nat) : List Nat :=
  let bitlen := msg.length * 8
  let m1 := msg ++ [0x80]
  m1 ++ List.replicate ((120 - m1.length % 64) % 64) 0
     ++ (List.range 8).map (fun i => (bitlen >>> ((7 - i) * 8)) % 256)

/-- The 16 initial 32-bit words of a 64-byte block, big-endian. -/
def blockWords (blk : List Nat) : List Nat :=
  (List.range 16).map (fun i =>
    ((blk.getD (4*i) 0) <<< 24) ||| ((blk.getD (4*i+1) 0) <<< 16) |||
    ((blk.getD (4*i+2) 0) <<< 8) ||| blk.getD (4*i+3) 0)

/-- Message-schedule extension: for `i = 16..63` (48 loop iterations,
counted down by `fuel`), `w[i] = gam1 w[i-2] + w[i-7] + gam0 w[i-15] + w[i-16]`
with wrapping add. -/
def extendW (w : List Nat) (i : Nat) : Nat → List Nat
  | 0 => w
  | fuel + 1 =>
    extendW (w ++ [(gam1 (w.getD (i-2) 0) + w.getD (i-7) 0 +
                    gam0 (w.getD (i-15) 0) + w.getD (i-16) 0) % 4294967296]) (i+1) fuel

/-- The 64 compression rounds (`i` the round index, `fuel` the remaining
iterations) over working variables `[a,b,c,d,e,f,g,hh]`. -/
def rounds (w : List Nat) (st : List Nat) (i : Nat) : Nat → List Nat
  | 0 => st
  | fuel + 1 =>
    match st with
    | [a,b,c,d,e,f,g,hh] =>
      let t1 := (hh + sig1 e + ch e f g + K.getD i 0 + w.getD i 0) % 4294967296
      let t2 := (sig0 a + maj a b c) % 4294967296
      rounds w [(t1 + t2) % 4294967296, a, b, c, (d + t1) % 4294967296, e, f, g] (i+1) fuel
    | st => st

/-- Initial hash state (FIPS-180-4). -/
def initH : List Nat :=
  [0x6a09e667,0xbb67ae85,0x3c6ef372,0xa54ff53a,0x510e527f,0x9b05688c,0x1f83d9ab,0x5be0cd19]

/-- Process the padded message 64 bytes at a time, adding the round output
into the hash state with wrapping 32-bit addition.  `fuel` bounds the number
of iterations; it only has to be at least the block count. -/
def processBlocksF (h : List Nat) (msg : List Nat) : Nat → List Nat
  | 0 => h
  | fuel + 1 =>
    if msg = [] then h
    else
      let st := rounds (extendW (blockWords (msg.take 64)) 16 48) h 0 64
      processBlocksF (List.zipWith (fun x y => (x + y) % 4294967296) h st)
        (msg.drop 64) fuel

/-- The full block-processing loop of `SHA256Impl::hash`. -/
def processBlocks (h : List Nat) (msg : List Nat) : List Nat :=
  processBlocksF h msg msg.length

/-- `SHA256Impl::hash`: the 32-byte digest, each word serialized big-endian
with each byte masked by `& 0xff`. -/
def hash (msg : List Nat) : List Nat :=
  (processBlocks initH (padMsg msg)).flatMap (fun h =>
    [(h >>> 24) &&& 255, (h >>> 16) &&& 255, (h >>> 8) &&& 255, h &&& 255])

end SHA256Impl

/-! ## AES-256 (namespace `AES256Impl` in the source) -/

namespace AES256Impl

/-- The AES S-box. -/
def sbox : List Nat := [
  0x63,0x7c,0x77,0x7b,0xf2,0x6b,0x6f,0xc5,0x30,0x01,0x67,0x2b,0xfe,0xd7,0xab,0x76,
  0xca,0x82,0xc9,0x7d,0xfa,0x59,0x47,0xf0,0xad,0xd4,0xa2,0xaf,0x9c,0xa4,0x72,0xc0,
  0xb7,0xfd,0x93,0x26,0x36,0x3f,0xf7,0xcc,0x34,0xa5,0xe5,0xf1,0x71,0xd8,0x31,0x15,
  0x04,0xc7,0x23,0xc3,0x18,0x96,0x05,0x9a,0x07,0x12,0x80,0xe2,0xeb,0x27,0xb2,0x75,
  0x09,0x83,0x2c,0x1a,0x1b,0x6e,0x5a,0xa0,0x52,0x3b,0xd6,0xb3,0x29,0xe3,0x2f,0x84,
  0x53,0xd1,0x00,0xed,0x20,0xfc,0xb1,0x5b,0x6a,0xcb,0xbe,0x39,0x4a,0x4c,0x58,0xcf,
  0xd0,0xef,0xaa,0xfb,0x43,0x4d,0x33,0x85,0x45,0xf9,0x02,0x7f,0x50,0x3c,0x9f,0xa8,
  0x51,0xa3,0x40,0x8f,0x92,0x9d,0x38,0xf5,0xbc,0xb6,0xda,0x21,0x10,0xff,0xf3,0xd2,
  0xcd,0x0c,0x13,0xec,0x5f,0x97,0x44,0x17,0xc4,0xa7,0x7e,0x3d,0x64,0x5d,0x19,0x73,
  0x60,0x81,0x4f,0xdc,0x22,0x2a,0x90,0x88,0x46,0xee,0xb8,0x14,0xde,0x5e,0x0b,0xdb,
  0xe0,0x32,0x3a,0x0a,0x49,0x06,0x24,0x5c,0xc2,0xd3,0xac,0x62,0x91,0x95,0xe4,0x79,
  0xe7,0xc8,0x37,0x6d,0x8d,0xd5,0x4e,0xa9,0x6c,0x56,0xf4,0xea,0x65,0x7a,0xae,0x08,
  0xba,0x78,0x25,0x2e,0x1c,0xa6,0xb4,0xc6,0xe8,0xdd,0x74,0x1f,0x4b,0xbd,0x8b,0x8a,
  0x70,0x3e,0xb5,0x66,0x48,0x03,0xf6,0x0e,0x61,0x35,0x57,0xb9,0x86,0xc1,0x1d,0x9e,
  0xe1,0xf8,0x98,0x11,0x69,0xd9,0x8e,0x94,0x9b,0x1e,0x87,0xe9,0xce,0x55,0x28,0xdf,
  0x8c,0xa1,0x89,0x0d,0xbf,0xe6,0x42,0x68,0x41,0x99,0x2d,0x0f,0xb0,0x54,0xbb,0x16]

/-- The inverse AES S-box. -/
def rsbox : List Nat := [
  0x52,0x09,0x6a,0xd5,0x30,0x36,0xa5,0x38,0xbf,0x40,0xa3,0x9e,0x81,0xf3,0xd7,0xfb,
  0x7c,0xe3,0x39,0x82,0x9b,0x2f,0xff,0x87,0x34,0x8e,0x43,0x44,0xc4,0xde,0xe9,0xcb,
  0x54,0x7b,0x94,0x32,0xa6,0xc2,0x23,0x3d,0xee,0x4c,0x95,0x0b,0x42,0xfa,0xc3,0x4e,
  0x08,0x2e,0xa1,0x66,0x28,0xd9,0x24,0xb2,0x76,0x5b,0xa2,0x49,0x6d,0x8b,0xd1,0x25,
  0x72,0xf8,0xf6,0x64,0x86,0x68,0x98,0x16,0xd4,0xa4,0x5c,0xcc,0x5d,0x65,0xb6,0x92,
  0x6c,0x70,0x48,0x50,0xfd,0xed,0xb9,0xda,0x5e,0x15,0x46,0x57,0xa7,0x8d,0x9d,0x84,
  0x90,0xd8,0xab,0x00,0x8c,0xbc,0xd3,0x0a,0xf7,0xe4,0x58,0x05,0xb8,0xb3,0x45,0x06,
  0xd0,0x2c,0x1e,0x8f,0xca,0x3f,0x0f,0x02,0xc1,0xaf,0xbd,0x03,0x01,0x13,0x8a,0x6b,
  0x3a,0x91,0x11,0x41,0x4f,0x67,0xdc,0xea,0x97,0xf2,0xcf,0xce,0xf0,0xb4,0xe6,0x73,
  0x96,0xac,0x74,0x22,0xe7,0xad,0x35,0x85,0xe2,0xf9,0x37,0xe8,0x1c,0x75,0xdf,0x6e,
  0x47,0xf1,0x1a,0x71,0x1d,0x29,0xc5,0x89,0x6f,0xb7,0x62,0x0e,0xaa,0x18,0xbe,0x1b,
  0xfc,0x56,0x3e,0x4b,0xc6,0xd2,0x79,0x20,0x9a,0xdb,0xc0,0xfe,0x78,0xcd,0x5a,0xf4,
  0x1f,0xdd,0xa8,0x33,0x88,0x07,0xc7,0x31,0xb1,0x12,0x10,0x59,0x27,0x80,0xec,0x5f,
  0x60,0x51,0x7f,0xa9,0x19,0xb5,0x4a,0x0d,0x2d,0xe5,0x7a,0x9f,0x93,0xc9,0x9c,0xef,
  0xa0,0xe0,0x3b,0x4d,0xae,0x2a,0xf5,0xb0,0xc8,0xeb,0xbb,0x3c,0x83,0x53,0x99,0x61,
  0x17,0x2b,0x04,0x7e,0xba,0x77,0xd6,0x26,0xe1,0x69,0x14,0x63,0x55,0x21,0x0c,0x7d]

/-- The round-constant table `rcon`. -/
def rcon : List Nat := [0x00,0x01,0x02,0x04,0x08,0x10,0x20,0x40,0x80,0x1b,0x36]

/-- S-box lookup as a function on byte values. -/
def sb (x : Nat) : Nat := sbox.getD x 0

/-- Inverse S-box lookup. -/
def rsb (x : Nat) : Nat := rsbox.getD x 0

/-- `xtime`: multiply by `x` in GF(2^8); the C return truncates to one byte. -/
def xtime (x : Nat) : Nat :=
  ((x <<< 1) ^^^ (if (x >>> 7) &&& 1 = 1 then 0x1b else 0)) % 256

/-- One-step unfolding of the `gmul` loop: conditionally XOR `a` into the
accumulator `p`, then double `a` and halve `b`; `n` counts down from 8. -/
def gmulAux (a b p n : Nat) : Nat :=
  match n with
  | 0 => p
  | n+1 => gmulAux (xtime a) (b >>> 1) (if b &&& 1 = 1 then p ^^^ a else p) n

/-- GF(2^8) multiplication by 8 shift-and-add steps, as in the source. -/
def gmul (a b : Nat) : Nat := gmulAux a b 0 8

/-- `addRoundKey`: XOR the 16 state bytes with round key `round`
(`state[j][i] ^= roundKey[round*16 + i*4 + j]`, i.e. byte `k` with
`roundKey[round*16 + k]` in the flat column-major layout). -/
def addRoundKey (rk : List Nat) (round : Nat) (s : List Nat) : List Nat :=
  List.zipWith Nat.xor s ((rk.drop (round * 16)).take 16)

/-- `subBytes`: S-box substitution of every state byte. -/
def subBytes (s : List Nat) : List Nat := s.map sb

/-- `invSubBytes`: inverse S-box substitution of every state byte. -/
def invSubBytes (s : List Nat) : List Nat := s.map rsb

/-- `shiftRows` on the flat column-major state (byte `4*c + r` is row `r`,
column `c`): row `r` rotates left by `r`. -/
def shiftRows : List Nat → List Nat
  | [b0,b1,b2,b3,b4,b5,b6,b7,b8,b9,b10,b11,b12,b13,b14,b15] =>
    [b0,b5,b10,b15, b4,b9,b14,b3, b8,b13,b2,b7, b12,b1,b6,b11]
  | s => s

/-- `invShiftRows`: row `r` rotates right by `r`. -/
def invShiftRows : List Nat → List Nat
  | [b0,b1,b2,b3,b4,b5,b6,b7,b8,b9,b10,b11,b12,b13,b14,b15] =>
    [b0,b13,b10,b7, b4,b1,b14,b11, b8,b5,b2,b15, b12,b9,b6,b3]
  | s => s

/-- `mixColumns`: each 4-byte column is multiplied by the MDS matrix
`[[2,3,1,1],[1,2,3,1],[1,1,2,3],[3,1,1,2]]` over GF(2^8). -/
def mixColumns : List Nat → List Nat
  | a0 :: a1 :: a2 :: a3 :: rest =>
    (gmul a0 2 ^^^ gmul a1 3 ^^^ a2 ^^^ a3) ::
    (a0 ^^^ gmul a1 2 ^^^ gmul a2 3 ^^^ a3) ::
    (a0 ^^^ a1 ^^^ gmul a2 2 ^^^ gmul a3 3) ::
    (gmul a0 3 ^^^ a1 ^^^ a2 ^^^ gmul a3 2) :: mixColumns rest
  | s => s

/-- `invMixColumns`: multiplication by the inverse MDS matrix
(coefficients 14/11/13/9). -/
def invMixColumns : List Nat → List Nat
  | a0 :: a1 :: a2 :: a3 :: rest =>
    (gmul a0 14 ^^^ gmul a1 11 ^^^ gmul a2 13 ^^^ gmul a3 9) ::
    (gmul a0 9 ^^^ gmul a1 14 ^^^ gmul a2 11 ^^^ gmul a3 13) ::
    (gmul a0 13 ^^^ gmul a1 9 ^^^ gmul a2 14 ^^^ gmul a3 11) ::
    (gmul a0 11 ^^^ gmul a1 13 ^^^ gmul a2 9 ^^^ gmul a3 14) :: invMixColumns rest
  | s => s

/-- The word at index `i` of a round-key byte array (4 bytes). -/
def rkWord (rk : List Nat) (i : Nat) : List Nat := (rk.drop (4 * i)).take 4

/-- The key-schedule transform of the previous word `temp` at index `i`:
rot-sub-rcon when `i % 8 == 0`, plain S-box substitution when `i % 8 == 4`,
identity otherwise (exactly the branch in `keyExpansion`). -/
def ksTransform (w : List Nat) (i : Nat) : List Nat :=
  if i % 8 = 0 then
    match w with
    | [t0,t1,t2,t3] => [sb t1 ^^^ rcon.getD (i / 8) 0, sb t2, sb t3, sb t0]
    | l => l
  else if i % 8 = 4 then w.map sb
  else w

/-- One-byte left rotation of a word, as the spec describes `RotWord`. -/
def rotWord : List Nat → List Nat
  | [] => []
  | a :: rest => rest ++ [a]

/-- The schedule transform exactly as the specification words it: when
`i % 8 == 0`, byte-rotate the word, substitute each byte through the S-box,
and XOR the first byte with `rcon[i/8]`; when `i % 8 == 4`, substitute each
byte; otherwise leave the word unchanged. -/
def specKsTransform (w : List Nat) (i : Nat) : List Nat :=
  if i % 8 = 0 then
    match (rotWord w).map sb with
    | [] => []
    | x :: rest => (x ^^^ rcon.getD (i / 8) 0) :: rest
  else if i % 8 = 4 then w.map sb
  else w

/-- The key-expansion loop with an explicit iteration count: at index `i`
with `fuel` iterations left, append
`roundKey[i] = roundKey[i-8] ^ transform(roundKey[i-1])` (word-wise). -/
def keyExpansionAuxF (rk : List Nat) (i : Nat) : Nat → List Nat
  | 0 => rk
  | fuel + 1 =>
    keyExpansionAuxF
      (rk ++ List.zipWith Nat.xor (rkWord rk (i - 8)) (ksTransform (rkWord rk (i - 1)) i))
      (i + 1) fuel

/-- The key-expansion loop from index `i` up to 59. -/
def keyExpansionAux (rk : List Nat) (i : Nat) : List Nat :=
  keyExpansionAuxF rk i (60 - i)

/-- `keyExpansion`: the 240-byte round-key schedule from a 32-byte key. -/
def keyExpansion (key : List Nat) : List Nat := keyExpansionAux key 8

/-- The encryption round loop body, `fuel` rounds starting at round `a`:
`{ subBytes; shiftRows; mixColumns; addRoundKey(round); }`. -/
def encRoundsF (rk : List Nat) (a : Nat) (s : List Nat) : Nat → List Nat
  | 0 => s
  | fuel + 1 =>
    encRoundsF rk (a + 1) (addRoundKey rk a (mixColumns (shiftRows (subBytes s)))) fuel

/-- The encryption round loop `for (round = a; round < b; round++)`. -/
def encRounds (rk : List Nat) (a b : Nat) (s : List Nat) : List Nat :=
  encRoundsF rk a s (b - a)

/-- The decryption round loop body, `fuel` rounds counting down from
round `b`: `{ invShiftRows; invSubBytes; addRoundKey(round); invMixColumns; }`. -/
def decRoundsF (rk : List Nat) (b : Nat) (s : List Nat) : Nat → List Nat
  | 0 => s
  | fuel + 1 =>
    decRoundsF rk (b - 1) (invMixColumns (addRoundKey rk b (invSubBytes (invShiftRows s)))) fuel

/-- The decryption round loop, rounds `b` down to `a` (the source runs it
with `a = 1`, i.e. `for (round = 13; round > 0; round--)`). -/
def decRounds (rk : List Nat) (a b : Nat) (s : List Nat) : List Nat :=
  decRoundsF rk b s (b + 1 - a)

/-- `encryptBlock` with `Nr = 14`: initial `addRoundKey(0)`, rounds `1..13`,
final round without `mixColumns`.  The C load/store between the flat block
and the 4×4 state is the identity on the flat layout used here. -/
def encryptBlock (rk : List Nat) (b : List Nat) : List Nat :=
  addRoundKey rk 14 (shiftRows (subBytes (encRounds rk 1 14 (addRoundKey rk 0 b))))

/-- `decryptBlock` with `Nr = 14`: `addRoundKey(14)`, rounds `13..1`
inverted, then the final `invShiftRows; invSubBytes; addRoundKey(0)`. -/
def decryptBlock (rk : List Nat) (b : List Nat) : List Nat :=
  addRoundKey rk 0 (invSubBytes (invShiftRows (decRounds rk 1 13 (addRoundKey rk 14 b))))

end AES256Impl

/-! ## Utility functions: padding and hex codec -/

/-- `pkcs7Pad`: append `16 - |data| % 16` bytes, each holding that value. -/
def pkcs7Pad (data : List Nat) : List Nat :=
  data ++ List.replicate (16 - data.length % 16) (16 - data.length % 16)

/-- `pkcs7Unpad`: `none` on an empty or non-multiple-of-16 input, a padding
byte outside `[1,16]`, or a trailing run that does not repeat it; otherwise
`some` of the input without its last `pad` bytes. -/
def pkcs7Unpad (data : List Nat) : Option (List Nat) :=
  if data = [] ∨ data.length % 16 ≠ 0 then none
  else
    let pad := data.getLastD 0
    if pad < 1 ∨ pad > 16 then none
    else if (data.drop (data.length - pad)).all (fun b => b = pad) then
      some (data.take (data.length - pad))
    else none

/-- The lowercase hex digit for a value `< 16` (as `%02x` prints it). -/
def hexDigitChar (n : Nat) : Char :=
  if n < 10 then Char.ofNat (48 + n) else Char.ofNat (87 + n)

/-- `bytesToHex`: two lowercase hex characters per byte. -/
def bytesToHex (data : List Nat) : List Char :=
  data.flatMap (fun b => [hexDigitChar (b / 16), hexDigitChar (b % 16)])

/-- The numeric value of a hex digit character, `none` if it is not one
(`strtol` accepts both cases). -/
def hexCharVal (c : Char) : Option Nat :=
  if 48 ≤ c.toNat ∧ c.toNat ≤ 57 then some (c.toNat - 48)
  else if 97 ≤ c.toNat ∧ c.toNat ≤ 102 then some (c.toNat - 87)
  else if 65 ≤ c.toNat ∧ c.toNat ≤ 70 then some (c.toNat - 55)
  else none

/-- The value `strtol(·, 16)` gives a two-character chunk: it stops at the
first non-digit, yielding `0` if the first character is invalid. -/
def hexPairVal (c1 c2 : Char) : Nat :=
  match hexCharVal c1 with
  | none => 0
  | some v1 =>
    match hexCharVal c2 with
    | none => v1
    | some v2 => 16 * v1 + v2

/-- `hexToBytes`: parse two characters at a time while `i + 1 < |hex|`
(a trailing odd character is dropped). -/
def hexToBytes : List Char → List Nat
  | c1 :: c2 :: rest => hexPairVal c1 c2 :: hexToBytes rest
  | _ => []

/-! ## CBC layer (`AESCipher` in the source) -/

namespace AESCipher

open AES256Impl

/-- The key `setKey` derives: the SHA-256 digest of the password bytes. -/
def deriveKey (password : List Nat) : List Nat := SHA256Impl.hash password

/-- The round-key schedule `setKey` installs for a password. -/
def scheduleOf (password : List Nat) : List Nat := keyExpansion (deriveKey password)

/-- The CBC encryption loop: XOR each 16-byte chunk with the previous
ciphertext block (initially the IV), encrypt, emit.  `fuel` bounds the
iteration count; any value at least the input length behaves alike. -/
def cbcEncBlocksF (rk prev pt : List Nat) : Nat → List Nat
  | 0 => []
  | fuel + 1 =>
    if pt = [] then []
    else
      let blk := encryptBlock rk (List.zipWith Nat.xor (pt.take 16) prev)
      blk ++ cbcEncBlocksF rk blk (pt.drop 16) fuel

/-- The CBC encryption loop over the whole (padded) plaintext. -/
def cbcEncBlocks (rk prev pt : List Nat) : List Nat :=
  cbcEncBlocksF rk prev pt pt.length

/-- `encrypt`: pad, then fail (`none`, the C `return {}`) when the random
source cannot supply an IV, else prepend the IV to the chained blocks. -/
def encrypt (rk : List Nat) (ivOpt : Option (List Nat)) (pt : List Nat) :
    Option (List Nat) :=
  match ivOpt with
  | none => none
  | some iv => some (iv ++ cbcEncBlocks rk iv (pkcs7Pad pt))

/-- The CBC decryption loop: decrypt each 16-byte chunk, XOR with the
previous ciphertext block (initially the IV), emit.  `fuel` bounds the
iteration count; any value at least the input length behaves alike. -/
def cbcDecBlocksF (rk prev ct : List Nat) : Nat → List Nat
  | 0 => []
  | fuel + 1 =>
    if ct = [] then []
    else
      List.zipWith Nat.xor (decryptBlock rk (ct.take 16)) prev
        ++ cbcDecBlocksF rk (ct.take 16) (ct.drop 16) fuel

/-- The CBC decryption loop over the whole ciphertext body. -/
def cbcDecBlocks (rk prev ct : List Nat) : List Nat :=
  cbcDecBlocksF rk prev ct ct.length

/-- `decrypt`: `none` (the C `return {}`) unless `|ct| ≥ 32` and
`(|ct| - 16) % 16 == 0`; otherwise CBC-decrypt past the IV and unpad,
propagating the unpad failure. -/
def decrypt (rk ct : List Nat) : Option (List Nat) :=
  if ct.length < 32 ∨ (ct.length - 16) % 16 ≠ 0 then none
  else pkcs7Unpad (cbcDecBlocks rk (ct.take 16) (ct.drop 16))

/-- The byte sequence the C `decrypt` actually returns: the recovered
plaintext, or the empty sentinel on either failure path. -/
def decryptBytes (rk ct : List Nat) : List Nat := (decrypt rk ct).getD []

end AESCipher

/-- All entries of a list are byte values. -/
def IsBytes (l : List Nat) : Prop := ∀ b ∈ l, b < 256

instance (l : List Nat) : Decidable (IsBytes l) :=
  inferInstanceAs (Decidable (∀ b ∈ l, b < 256))

/-! ## Bitwise arithmetic lemmas -/

instance : Std.Associative (fun x y : Nat => x ^^^ y) := ⟨Nat.xor_assoc⟩

instance : Std.Commutative (fun x y : Nat => x ^^^ y) := ⟨Nat.xor_comm⟩

theorem xor_mod_256 (x y : Nat) : (x ^^^ y) % 256 = x % 256 ^^^ y % 256 := by
  rw [show (256 : Nat) = 2 ^ 8 from rfl]
  apply Nat.eq_of_testBit_eq
  intro i
  simp only [Nat.testBit_mod_two_pow, Nat.testBit_xor, Bool.and_xor_distrib_left]

theorem shiftLeft_xor_nat (x y n : Nat) : (x ^^^ y) <<< n = x <<< n ^^^ y <<< n := by
  apply Nat.eq_of_testBit_eq
  intro i
  simp [Nat.testBit_shiftLeft, Bool.and_xor_distrib_left]

theorem shiftRight_xor_nat (x y n : Nat) : (x ^^^ y) >>> n = x >>> n ^^^ y >>> n := by
  apply Nat.eq_of_testBit_eq
  intro i
  simp [Nat.testBit_shiftRight]

namespace AES256Impl

theorem xtime_lt (x : Nat) : xtime x < 256 := Nat.mod_lt _ (by norm_num)

theorem xtime_xor (x y : Nat) : xtime (x ^^^ y) = xtime x ^^^ xtime y := by
  have hx : (x >>> 7) &&& 1 = 0 ∨ (x >>> 7) &&& 1 = 1 := by
    have := Nat.and_le_right (n := x >>> 7) (m := 1); omega
  have hy : (y >>> 7) &&& 1 = 0 ∨ (y >>> 7) &&& 1 = 1 := by
    have := Nat.and_le_right (n := y >>> 7) (m := 1); omega
  have hbit : ((x ^^^ y) >>> 7) &&& 1 = ((x >>> 7) &&& 1) ^^^ ((y >>> 7) &&& 1) := by
    rw [shiftRight_xor_nat, Nat.and_xor_distrib_right]
  unfold xtime
  rw [hbit, ← xor_mod_256, shiftLeft_xor_nat]
  rcases hx with h1 | h1 <;> rcases hy with h2 | h2 <;> rw [h1, h2]
  · norm_num
  · norm_num
    ac_rfl
  · norm_num
    ac_rfl
  · norm_num
    have h27 : (x <<< 1 ^^^ 27) ^^^ (y <<< 1 ^^^ 27)
        = (x <<< 1 ^^^ y <<< 1) ^^^ (27 ^^^ 27) := by ac_rfl
    rw [h27]
    simp

theorem gmulAux_lt (n : Nat) : ∀ a b p, a < 256 → p < 256 → gmulAux a b p n < 256 := by
  induction n with
  | zero => intro a b p _ hp; exact hp
  | succ n ih =>
    intro a b p ha hp
    show gmulAux (xtime a) (b >>> 1) (if b &&& 1 = 1 then p ^^^ a else p) n < 256
    by_cases h : b &&& 1 = 1
    · rw [if_pos h]
      exact ih _ _ _ (xtime_lt a) (Nat.xor_lt_two_pow (n := 8) hp ha)
    · rw [if_neg h]
      exact ih _ _ _ (xtime_lt a) hp

theorem gmul_lt (a b : Nat) (ha : a < 256) : gmul a b < 256 :=
  gmulAux_lt 8 a b 0 ha (by norm_num)

theorem gmulAux_xor (n : Nat) :
    ∀ a a' b p p',
      gmulAux (a ^^^ a') b (p ^^^ p') n = gmulAux a b p n ^^^ gmulAux a' b p' n := by
  induction n with
  | zero => intro a a' b p p'; rfl
  | succ n ih =>
    intro a a' b p p'
    show gmulAux (xtime (a ^^^ a')) (b >>> 1)
        (if b &&& 1 = 1 then (p ^^^ p') ^^^ (a ^^^ a') else p ^^^ p') n
      = gmulAux (xtime a) (b >>> 1) (if b &&& 1 = 1 then p ^^^ a else p) n ^^^
        gmulAux (xtime a') (b >>> 1) (if b &&& 1 = 1 then p' ^^^ a' else p') n
    rw [xtime_xor]
    by_cases h : b &&& 1 = 1
    · rw [if_pos h, if_pos h, if_pos h]
      have hsw : (p ^^^ p') ^^^ (a ^^^ a') = (p ^^^ a) ^^^ (p' ^^^ a') := by ac_rfl
      rw [hsw]
      exact ih _ _ _ _ _
    · rw [if_neg h, if_neg h, if_neg h]
      exact ih _ _ _ _ _

/-- `gmul` is XOR-linear in its first argument. -/
theorem gmul_xor (a a' b : Nat) :
    gmul (a ^^^ a') b = gmul a b ^^^ gmul a' b := by
  have h0 : (0 : Nat) = 0 ^^^ 0 := rfl
  unfold gmul
  rw [h0]
  exact gmulAux_xor 8 a a' b 0 0

theorem gmulAux_zero (n : Nat) : ∀ b p, gmulAux 0 b p n = p := by
  induction n with
  | zero => intro b p; rfl
  | succ n ih =>
    intro b p
    show gmulAux (xtime 0) (b >>> 1) (if b &&& 1 = 1 then p ^^^ 0 else p) n = p
    rw [(by decide : xtime 0 = 0)]
    by_cases h : b &&& 1 = 1
    · rw [if_pos h, Nat.xor_zero, ih]
    · rw [if_neg h, ih]

theorem gmul_zero (b : Nat) : gmul 0 b = 0 := gmulAux_zero 8 b 0

/-- `gmul a 1 = a` for every `a`. -/
theorem gmul_one (a : Nat) : gmul a 1 = a := by
  show gmulAux a 1 0 8 = a
  simp [gmulAux]

theorem xor_interchange4 (p0 q0 p1 q1 p2 q2 p3 q3 : Nat) :
    (p0 ^^^ q0) ^^^ (p1 ^^^ q1) ^^^ (p2 ^^^ q2) ^^^ (p3 ^^^ q3)
      = (p0 ^^^ p1 ^^^ p2 ^^^ p3) ^^^ (q0 ^^^ q1 ^^^ q2 ^^^ q3) := by ac_rfl

theorem xor_transpose16
    (t00 t01 t02 t03 t10 t11 t12 t13 t20 t21 t22 t23 t30 t31 t32 t33 : Nat) :
    (t00 ^^^ t01 ^^^ t02 ^^^ t03) ^^^ (t10 ^^^ t11 ^^^ t12 ^^^ t13) ^^^
      (t20 ^^^ t21 ^^^ t22 ^^^ t23) ^^^ (t30 ^^^ t31 ^^^ t32 ^^^ t33)
      = (t00 ^^^ t10 ^^^ t20 ^^^ t30) ^^^ (t01 ^^^ t11 ^^^ t21 ^^^ t31) ^^^
        (t02 ^^^ t12 ^^^ t22 ^^^ t32) ^^^ (t03 ^^^ t13 ^^^ t23 ^^^ t33) := by ac_rfl

/-- Splitting `gmul` across a four-term XOR. -/
theorem gmul_xor4 (t0 t1 t2 t3 d : Nat) :
    gmul (t0 ^^^ t1 ^^^ t2 ^^^ t3) d
      = gmul t0 d ^^^ gmul t1 d ^^^ gmul t2 d ^^^ gmul t3 d := by
  rw [gmul_xor, gmul_xor, gmul_xor]

/-- Every byte is the XOR of its eight single-bit masks. -/
theorem byte_decomp : ∀ a : Fin 256,
    a.val = (a.val &&& 1) ^^^ ((a.val &&& 2) ^^^ ((a.val &&& 4) ^^^ ((a.val &&& 8) ^^^
      ((a.val &&& 16) ^^^ ((a.val &&& 32) ^^^ ((a.val &&& 64) ^^^ (a.val &&& 128))))))) := by
  decide

/-- A single-bit mask of a byte is `0` or the mask itself. -/
theorem byte_mask_cases : ∀ a : Fin 256,
    (a.val &&& 1 = 0 ∨ a.val &&& 1 = 1) ∧ (a.val &&& 2 = 0 ∨ a.val &&& 2 = 2) ∧
    (a.val &&& 4 = 0 ∨ a.val &&& 4 = 4) ∧ (a.val &&& 8 = 0 ∨ a.val &&& 8 = 8) ∧
    (a.val &&& 16 = 0 ∨ a.val &&& 16 = 16) ∧ (a.val &&& 32 = 0 ∨ a.val &&& 32 = 32) ∧
    (a.val &&& 64 = 0 ∨ a.val &&& 64 = 64) ∧ (a.val &&& 128 = 0 ∨ a.val &&& 128 = 128) := by
  decide

/-- `byte_decomp` restated on `Nat`. -/
theorem byte_decomp_nat (a : Nat) (ha : a < 256) :
    a = (a &&& 1) ^^^ ((a &&& 2) ^^^ ((a &&& 4) ^^^ ((a &&& 8) ^^^
      ((a &&& 16) ^^^ ((a &&& 32) ^^^ ((a &&& 64) ^^^ (a &&& 128))))))) :=
  byte_decomp ⟨a, ha⟩

/-- Two XOR-linear byte functions that agree at `0` and on the eight
single-bit bytes agree on all bytes. -/
theorem byte_linext (f g : Nat → Nat)
    (hf : ∀ x y, x < 256 → y < 256 → f (x ^^^ y) = f x ^^^ f y)
    (hg : ∀ x y, x < 256 → y < 256 → g (x ^^^ y) = g x ^^^ g y)
    (h0 : f 0 = g 0)
    (hb : ∀ m ∈ [1, 2, 4, 8, 16, 32, 64, 128], f m = g m) :
    ∀ a, a < 256 → f a = g a := by
  intro a ha
  have hmask : ∀ m ∈ [1, 2, 4, 8, 16, 32, 64, 128], f (a &&& m) = g (a &&& m) := by
    intro m hm
    have hcase : a &&& m = 0 ∨ a &&& m = m := by
      have hc := byte_mask_cases ⟨a, ha⟩
      simp only [List.mem_cons, List.not_mem_nil, or_false] at hm
      rcases hm with rfl | rfl | rfl | rfl | rfl | rfl | rfl | rfl
      · exact hc.1
      · exact hc.2.1
      · exact hc.2.2.1
      · exact hc.2.2.2.1
      · exact hc.2.2.2.2.1
      · exact hc.2.2.2.2.2.1
      · exact hc.2.2.2.2.2.2.1
      · exact hc.2.2.2.2.2.2.2
    rcases hcase with h | h <;> rw [h]
    · exact h0
    · exact hb m hm
  have hlt : ∀ m : Nat, a &&& m < 256 := fun m => Nat.lt_of_le_of_lt Nat.and_le_left ha
  have step : ∀ h : Nat → Nat,
      (∀ x y, x < 256 → y < 256 → h (x ^^^ y) = h x ^^^ h y) →
      h a = h (a &&& 1) ^^^ (h (a &&& 2) ^^^ (h (a &&& 4) ^^^ (h (a &&& 8) ^^^
        (h (a &&& 16) ^^^ (h (a &&& 32) ^^^ (h (a &&& 64) ^^^ h (a &&& 128))))))) := by
    intro h hh
    have b7 : a &&& 64 ^^^ (a &&& 128) < 256 :=
      Nat.xor_lt_two_pow (n := 8) (hlt 64) (hlt 128)
    have b6 : a &&& 32 ^^^ (a &&& 64 ^^^ (a &&& 128)) < 256 :=
      Nat.xor_lt_two_pow (n := 8) (hlt 32) b7
    have b5 : a &&& 16 ^^^ (a &&& 32 ^^^ (a &&& 64 ^^^ (a &&& 128))) < 256 :=
      Nat.xor_lt_two_pow (n := 8) (hlt 16) b6
    have b4 : a &&& 8 ^^^ (a &&& 16 ^^^ (a &&& 32 ^^^ (a &&& 64 ^^^ (a &&& 128)))) < 256 :=
      Nat.xor_lt_two_pow (n := 8) (hlt 8) b5
    have b3 : a &&& 4 ^^^ (a &&& 8 ^^^ (a &&& 16 ^^^ (a &&& 32 ^^^ (a &&& 64 ^^^ (a &&& 128)))))
        < 256 := Nat.xor_lt_two_pow (n := 8) (hlt 4) b4
    have b2 : a &&& 2 ^^^ (a &&& 4 ^^^ (a &&& 8 ^^^ (a &&& 16 ^^^
        (a &&& 32 ^^^ (a &&& 64 ^^^ (a &&& 128)))))) < 256 :=
      Nat.xor_lt_two_pow (n := 8) (hlt 2) b3
    conv_lhs => rw [byte_decomp_nat a ha]
    rw [hh _ _ (hlt 1) b2, hh _ _ (hlt 2) b3, hh _ _ (hlt 4) b4, hh _ _ (hlt 8) b5,
        hh _ _ (hlt 16) b6, hh _ _ (hlt 32) b7,
        hh _ _ (hlt 64) (hlt 128)]
  rw [step f hf, step g hg]
  rw [hmask 1 (by simp), hmask 2 (by simp), hmask 4 (by simp), hmask 8 (by simp),
      hmask 16 (by simp), hmask 32 (by simp), hmask 64 (by simp), hmask 128 (by simp)]

/-! ### The sixteen GF(2⁸) matrix-product identities for
`invMixColumns ∘ mixColumns` (verified on the single-bit basis and
extended by linearity). -/

theorem dim00 : ∀ a, a < 256 →
    gmul (gmul a 2) 14 ^^^ gmul a 11 ^^^ gmul a 13 ^^^ gmul (gmul a 3) 9 = a := by
  apply byte_linext
  · intro x y _ _; simp only [gmul_xor]; ac_rfl
  · intro x y _ _; rfl
  · simp [gmul_zero]
  · decide

theorem dim01 : ∀ a, a < 256 →
    gmul (gmul a 3) 14 ^^^ gmul (gmul a 2) 11 ^^^ gmul a 13 ^^^ gmul a 9 = 0 := by
  apply byte_linext
  · intro x y _ _; simp only [gmul_xor]; ac_rfl
  · intro x y _ _; simp
  · simp [gmul_zero]
  · decide

theorem dim02 : ∀ a, a < 256 →
    gmul a 14 ^^^ gmul (gmul a 3) 11 ^^^ gmul (gmul a 2) 13 ^^^ gmul a 9 = 0 := by
  apply byte_linext
  · intro x y _ _; simp only [gmul_xor]; ac_rfl
  · intro x y _ _; simp
  · simp [gmul_zero]
  · decide

theorem dim03 : ∀ a, a < 256 →
    gmul a 14 ^^^ gmul a 11 ^^^ gmul (gmul a 3) 13 ^^^ gmul (gmul a 2) 9 = 0 := by
  apply byte_linext
  · intro x y _ _; simp only [gmul_xor]; ac_rfl
  · intro x y _ _; simp
  · simp [gmul_zero]
  · decide

theorem dim10 : ∀ a, a < 256 →
    gmul (gmul a 2) 9 ^^^ gmul a 14 ^^^ gmul a 11 ^^^ gmul (gmul a 3) 13 = 0 := by
  apply byte_linext
  · intro x y _ _; simp only [gmul_xor]; ac_rfl
  · intro x y _ _; simp
  · simp [gmul_zero]
  · decide

theorem dim11 : ∀ a, a < 256 →
    gmul (gmul a 3) 9 ^^^ gmul (gmul a 2) 14 ^^^ gmul a 11 ^^^ gmul a 13 = a := by
  apply byte_linext
  · intro x y _ _; simp only [gmul_xor]; ac_rfl
  · intro x y _ _; rfl
  · simp [gmul_zero]
  · decide

theorem dim12 : ∀ a, a < 256 →
    gmul a 9 ^^^ gmul (gmul a 3) 14 ^^^ gmul (gmul a 2) 11 ^^^ gmul a 13 = 0 := by
  apply byte_linext
  · intro x y _ _; simp only [gmul_xor]; ac_rfl
  · intro x y _ _; simp
  · simp [gmul_zero]
  · decide

theorem dim13 : ∀ a, a < 256 →
    gmul a 9 ^^^ gmul a 14 ^^^ gmul (gmul a 3) 11 ^^^ gmul (gmul a 2) 13 = 0 := by
  apply byte_linext
  · intro x y _ _; simp only [gmul_xor]; ac_rfl
  · intro x y _ _; simp
  · simp [gmul_zero]
  · decide

theorem dim20 : ∀ a, a < 256 →
    gmul (gmul a 2) 13 ^^^ gmul a 9 ^^^ gmul a 14 ^^^ gmul (gmul a 3) 11 = 0 := by
  apply byte_linext
  · intro x y _ _; simp only [gmul_xor]; ac_rfl
  · intro x y _ _; simp
  · simp [gmul_zero]
  · decide

theorem dim21 : ∀ a, a < 256 →
    gmul (gmul a 3) 13 ^^^ gmul (gmul a 2) 9 ^^^ gmul a 14 ^^^ gmul a 11 = 0 := by
  apply byte_linext
  · intro x y _ _; simp only [gmul_xor]; ac_rfl
  · intro x y _ _; simp
  · simp [gmul_zero]
  · decide

theorem dim22 : ∀ a, a < 256 →
    gmul a 13 ^^^ gmul (gmul a 3) 9 ^^^ gmul (gmul a 2) 14 ^^^ gmul a 11 = a := by
  apply byte_linext
  · intro x y _ _; simp only [gmul_xor]; ac_rfl
  · intro x y _ _; rfl
  · simp [gmul_zero]
  · decide

theorem dim23 : ∀ a, a < 256 →
    gmul a 13 ^^^ gmul a 9 ^^^ gmul (gmul a 3) 14 ^^^ gmul (gmul a 2) 11 = 0 := by
  apply byte_linext
  · intro x y _ _; simp only [gmul_xor]; ac_rfl
  · intro x y _ _; simp
  · simp [gmul_zero]
  · decide

theorem dim30 : ∀ a, a < 256 →
    gmul (gmul a 2) 11 ^^^ gmul a 13 ^^^ gmul a 9 ^^^ gmul (gmul a 3) 14 = 0 := by
  apply byte_linext
  · intro x y _ _; simp only [gmul_xor]; ac_rfl
  · intro x y _ _; simp
  · simp [gmul_zero]
  · decide

theorem dim31 : ∀ a, a < 256 →
    gmul (gmul a 3) 11 ^^^ gmul (gmul a 2) 13 ^^^ gmul a 9 ^^^ gmul a 14 = 0 := by
  apply byte_linext
  · intro x y _ _; simp only [gmul_xor]; ac_rfl
  · intro x y _ _; simp
  · simp [gmul_zero]
  · decide

theorem dim32 : ∀ a, a < 256 →
    gmul a 11 ^^^ gmul (gmul a 3) 13 ^^^ gmul (gmul a 2) 9 ^^^ gmul a 14 = 0 := by
  apply byte_linext
  · intro x y _ _; simp only [gmul_xor]; ac_rfl
  · intro x y _ _; simp
  · simp [gmul_zero]
  · decide

theorem dim33 : ∀ a, a < 256 →
    gmul a 11 ^^^ gmul a 13 ^^^ gmul (gmul a 3) 9 ^^^ gmul (gmul a 2) 14 = a := by
  apply byte_linext
  · intro x y _ _; simp only [gmul_xor]; ac_rfl
  · intro x y _ _; rfl
  · simp [gmul_zero]
  · decide

/-! ### The sixteen identities for `mixColumns ∘ invMixColumns`. -/

theorem dmi00 : ∀ a, a < 256 →
    gmul (gmul a 14) 2 ^^^ gmul (gmul a 9) 3 ^^^ gmul a 13 ^^^ gmul a 11 = a := by
  apply byte_linext
  · intro x y _ _; simp only [gmul_xor]; ac_rfl
  · intro x y _ _; rfl
  · simp [gmul_zero]
  · decide

theorem dmi01 : ∀ a, a < 256 →
    gmul (gmul a 11) 2 ^^^ gmul (gmul a 14) 3 ^^^ gmul a 9 ^^^ gmul a 13 = 0 := by
  apply byte_linext
  · intro x y _ _; simp only [gmul_xor]; ac_rfl
  · intro x y _ _; simp
  · simp [gmul_zero]
  · decide

theorem dmi02 : ∀ a, a < 256 →
    gmul (gmul a 13) 2 ^^^ gmul (gmul a 11) 3 ^^^ gmul a 14 ^^^ gmul a 9 = 0 := by
  apply byte_linext
  · intro x y _ _; simp only [gmul_xor]; ac_rfl
  · intro x y _ _; simp
  · simp [gmul_zero]
  · decide

theorem dmi03 : ∀ a, a < 256 →
    gmul (gmul a 9) 2 ^^^ gmul (gmul a 13) 3 ^^^ gmul a 11 ^^^ gmul a 14 = 0 := by
  apply byte_linext
  · intro x y _ _; simp only [gmul_xor]; ac_rfl
  · intro x y _ _; simp
  · simp [gmul_zero]
  · decide

theorem dmi10 : ∀ a, a < 256 →
    gmul a 14 ^^^ gmul (gmul a 9) 2 ^^^ gmul (gmul a 13) 3 ^^^ gmul a 11 = 0 := by
  apply byte_linext
  · intro x y _ _; simp only [gmul_xor]; ac_rfl
  · intro x y _ _; simp
  · simp [gmul_zero]
  · decide

theorem dmi11 : ∀ a, a < 256 →
    gmul a 11 ^^^ gmul (gmul a 14) 2 ^^^ gmul (gmul a 9) 3 ^^^ gmul a 13 = a := by
  apply byte_linext
  · intro x y _ _; simp only [gmul_xor]; ac_rfl
  · intro x y _ _; rfl
  · simp [gmul_zero]
  · decide

theorem dmi12 : ∀ a, a < 256 →
    gmul a 13 ^^^ gmul (gmul a 11) 2 ^^^ gmul (gmul a 14) 3 ^^^ gmul a 9 = 0 := by
  apply byte_linext
  · intro x y _ _; simp only [gmul_xor]; ac_rfl
  · intro x y _ _; simp
  · simp [gmul_zero]
  · decide

theorem dmi13 : ∀ a, a < 256 →
    gmul a 9 ^^^ gmul (gmul a 13) 2 ^^^ gmul (gmul a 11) 3 ^^^ gmul a 14 = 0 := by
  apply byte_linext
  · intro x y _ _; simp only [gmul_xor]; ac_rfl
  · intro x y _ _; simp
  · simp [gmul_zero]
  · decide

theorem dmi20 : ∀ a, a < 256 →
    gmul a 14 ^^^ gmul a 9 ^^^ gmul (gmul a 13) 2 ^^^ gmul (gmul a 11) 3 = 0 := by
  apply byte_linext
  · intro x y _ _; simp only [gmul_xor]; ac_rfl
  · intro x y _ _; simp
  · simp [gmul_zero]
  · decide

theorem dmi21 : ∀ a, a < 256 →
    gmul a 11 ^^^ gmul a 14 ^^^ gmul (gmul a 9) 2 ^^^ gmul (gmul a 13) 3 = 0 := by
  apply byte_linext
  · intro x y _ _; simp only [gmul_xor]; ac_rfl
  · intro x y _ _; simp
  · simp [gmul_zero]
  · decide

theorem dmi22 : ∀ a, a < 256 →
    gmul a 13 ^^^ gmul a 11 ^^^ gmul (gmul a 14) 2 ^^^ gmul (gmul a 9) 3 = a := by
  apply byte_linext
  · intro x y _ _; simp only [gmul_xor]; ac_rfl
  · intro x y _ _; rfl
  · simp [gmul_zero]
  · decide

theorem dmi23 : ∀ a, a < 256 →
    gmul a 9 ^^^ gmul a 13 ^^^ gmul (gmul a 11) 2 ^^^ gmul (gmul a 14) 3 = 0 := by
  apply byte_linext
  · intro x y _ _; simp only [gmul_xor]; ac_rfl
  · intro x y _ _; simp
  · simp [gmul_zero]
  · decide

theorem dmi30 : ∀ a, a < 256 →
    gmul (gmul a 14) 3 ^^^ gmul a 9 ^^^ gmul a 13 ^^^ gmul (gmul a 11) 2 = 0 := by
  apply byte_linext
  · intro x y _ _; simp only [gmul_xor]; ac_rfl
  · intro x y _ _; simp
  · simp [gmul_zero]
  · decide

theorem dmi31 : ∀ a, a < 256 →
    gmul (gmul a 11) 3 ^^^ gmul a 14 ^^^ gmul a 9 ^^^ gmul (gmul a 13) 2 = 0 := by
  apply byte_linext
  · intro x y _ _; simp only [gmul_xor]; ac_rfl
  · intro x y _ _; simp
  · simp [gmul_zero]
  · decide

theorem dmi32 : ∀ a, a < 256 →
    gmul (gmul a 13) 3 ^^^ gmul a 11 ^^^ gmul a 14 ^^^ gmul (gmul a 9) 2 = 0 := by
  apply byte_linext
  · intro x y _ _; simp only [gmul_xor]; ac_rfl
  · intro x y _ _; simp
  · simp [gmul_zero]
  · decide

theorem dmi33 : ∀ a, a < 256 →
    gmul (gmul a 9) 3 ^^^ gmul a 13 ^^^ gmul a 11 ^^^ gmul (gmul a 14) 2 = a := by
  apply byte_linext
  · intro x y _ _; simp only [gmul_xor]; ac_rfl
  · intro x y _ _; rfl
  · simp [gmul_zero]
  · decide

/-! ### `mixColumns` and `invMixColumns` are mutual inverses on byte lists. -/

theorem mixColumns_cons4 (a0 a1 a2 a3 : Nat) (rest : List Nat) :
    mixColumns (a0 :: a1 :: a2 :: a3 :: rest) =
      (gmul a0 2 ^^^ gmul a1 3 ^^^ a2 ^^^ a3) ::
      (a0 ^^^ gmul a1 2 ^^^ gmul a2 3 ^^^ a3) ::
      (a0 ^^^ a1 ^^^ gmul a2 2 ^^^ gmul a3 3) ::
      (gmul a0 3 ^^^ a1 ^^^ a2 ^^^ gmul a3 2) :: mixColumns rest := rfl

theorem invMixColumns_cons4 (b0 b1 b2 b3 : Nat) (rest : List Nat) :
    invMixColumns (b0 :: b1 :: b2 :: b3 :: rest) =
      (gmul b0 14 ^^^ gmul b1 11 ^^^ gmul b2 13 ^^^ gmul b3 9) ::
      (gmul b0 9 ^^^ gmul b1 14 ^^^ gmul b2 11 ^^^ gmul b3 13) ::
      (gmul b0 13 ^^^ gmul b1 9 ^^^ gmul b2 14 ^^^ gmul b3 11) ::
      (gmul b0 11 ^^^ gmul b1 13 ^^^ gmul b2 9 ^^^ gmul b3 14) :: invMixColumns rest := rfl

theorem invMix_mix : ∀ s : List Nat, IsBytes s → invMixColumns (mixColumns s) = s
  | [], _ => rfl
  | [_], _ => rfl
  | [_, _], _ => rfl
  | [_, _, _], _ => rfl
  | a0 :: a1 :: a2 :: a3 :: rest, hb => by
    have h0 : a0 < 256 := hb a0 (by simp)
    have h1 : a1 < 256 := hb a1 (by simp)
    have h2 : a2 < 256 := hb a2 (by simp)
    have h3 : a3 < 256 := hb a3 (by simp)
    have hrest : IsBytes rest := fun b hbm => hb b (by simp [hbm])
    rw [mixColumns_cons4, invMixColumns_cons4, invMix_mix rest hrest]
    simp only [List.cons.injEq]
    refine ⟨?_, ?_, ?_, ?_, trivial⟩
    · simp only [gmul_xor]
      rw [xor_transpose16, dim00 a0 h0, dim01 a1 h1, dim02 a2 h2, dim03 a3 h3]
      simp
    · simp only [gmul_xor]
      rw [xor_transpose16, dim10 a0 h0, dim11 a1 h1, dim12 a2 h2, dim13 a3 h3]
      simp
    · simp only [gmul_xor]
      rw [xor_transpose16, dim20 a0 h0, dim21 a1 h1, dim22 a2 h2, dim23 a3 h3]
      simp
    · simp only [gmul_xor]
      rw [xor_transpose16, dim30 a0 h0, dim31 a1 h1, dim32 a2 h2, dim33 a3 h3]
      simp

theorem mix_invMix : ∀ s : List Nat, IsBytes s → mixColumns (invMixColumns s) = s
  | [], _ => rfl
  | [_], _ => rfl
  | [_, _], _ => rfl
  | [_, _, _], _ => rfl
  | a0 :: a1 :: a2 :: a3 :: rest, hb => by
    have h0 : a0 < 256 := hb a0 (by simp)
    have h1 : a1 < 256 := hb a1 (by simp)
    have h2 : a2 < 256 := hb a2 (by simp)
    have h3 : a3 < 256 := hb a3 (by simp)
    have hrest : IsBytes rest := fun b hbm => hb b (by simp [hbm])
    rw [invMixColumns_cons4, mixColumns_cons4, mix_invMix rest hrest]
    simp only [List.cons.injEq]
    refine ⟨?_, ?_, ?_, ?_, trivial⟩
    · simp only [gmul_xor]
      rw [xor_transpose16, dmi00 a0 h0, dmi01 a1 h1, dmi02 a2 h2, dmi03 a3 h3]
      simp
    · simp only [gmul_xor]
      rw [xor_transpose16, dmi10 a0 h0, dmi11 a1 h1, dmi12 a2 h2, dmi13 a3 h3]
      simp
    · simp only [gmul_xor]
      rw [xor_transpose16, dmi20 a0 h0, dmi21 a1 h1, dmi22 a2 h2, dmi23 a3 h3]
      simp
    · simp only [gmul_xor]
      rw [xor_transpose16, dmi30 a0 h0, dmi31 a1 h1, dmi32 a2 h2, dmi33 a3 h3]
      simp

end AES256Impl

/-! ## S-box facts and state-operation lemmas -/

namespace AES256Impl

theorem sbox_length : sbox.length = 256 := by decide

theorem rsbox_length : rsbox.length = 256 := by decide

set_option maxHeartbeats 1000000 in
theorem rsb_sb_fin : ∀ x : Fin 256, rsb (sb x.val) = x.val := by decide

set_option maxHeartbeats 1000000 in
theorem sb_rsb_fin : ∀ x : Fin 256, sb (rsb x.val) = x.val := by decide

set_option maxHeartbeats 1000000 in
theorem sb_lt_fin : ∀ x : Fin 256, sb x.val < 256 := by decide

set_option maxHeartbeats 1000000 in
theorem rsb_lt_fin : ∀ x : Fin 256, rsb x.val < 256 := by decide

theorem sb_lt (x : Nat) : sb x < 256 := by
  rcases Nat.lt_or_ge x 256 with h | h
  · exact sb_lt_fin ⟨x, h⟩
  · show sbox.getD x 0 < 256
    rw [List.getD_eq_getElem?_getD, List.getElem?_eq_none (by rw [sbox_length]; exact h)]
    norm_num

theorem rsb_lt (x : Nat) : rsb x < 256 := by
  rcases Nat.lt_or_ge x 256 with h | h
  · exact rsb_lt_fin ⟨x, h⟩
  · show rsbox.getD x 0 < 256
    rw [List.getD_eq_getElem?_getD, List.getElem?_eq_none (by rw [rsbox_length]; exact h)]
    norm_num

theorem rsb_sb (x : Nat) (h : x < 256) : rsb (sb x) = x := rsb_sb_fin ⟨x, h⟩

theorem sb_rsb (x : Nat) (h : x < 256) : sb (rsb x) = x := sb_rsb_fin ⟨x, h⟩

end AES256Impl

/-! ## List helpers -/

theorem isBytes_cons {x : Nat} {l : List Nat} :
    IsBytes (x :: l) ↔ x < 256 ∧ IsBytes l := List.forall_mem_cons

theorem isBytes_append {l l' : List Nat} :
    IsBytes (l ++ l') ↔ IsBytes l ∧ IsBytes l' := by
  constructor
  · intro h
    exact ⟨fun b hb => h b (List.mem_append_left _ hb),
           fun b hb => h b (List.mem_append_right _ hb)⟩
  · rintro ⟨h1, h2⟩ b hb
    rcases List.mem_append.mp hb with h | h
    · exact h1 b h
    · exact h2 b h

theorem isBytes_take (n : Nat) {l : List Nat} (h : IsBytes l) : IsBytes (l.take n) :=
  fun b hb => h b (List.take_subset n l hb)

theorem isBytes_drop (n : Nat) {l : List Nat} (h : IsBytes l) : IsBytes (l.drop n) :=
  fun b hb => h b (List.drop_subset n l hb)

theorem isBytes_zipWith_xor {s t : List Nat} (hs : IsBytes s) (ht : IsBytes t) :
    IsBytes (List.zipWith Nat.xor s t) := by
  induction s generalizing t with
  | nil => intro b hb; simp at hb
  | cons x s ih =>
    cases t with
    | nil => intro b hb; simp at hb
    | cons y t =>
      rw [List.zipWith_cons_cons, isBytes_cons]
      rw [isBytes_cons] at hs ht
      exact ⟨Nat.xor_lt_two_pow (n := 8) hs.1 ht.1, ih hs.2 ht.2⟩

/-- XOR-ing twice with the same list gives back the original (when the
mask list is at least as long). -/
theorem zipWith_xor_cancel : ∀ (s t : List Nat), s.length ≤ t.length →
    List.zipWith Nat.xor (List.zipWith Nat.xor s t) t = s
  | [], _, _ => by simp
  | x :: s, [], h => by simp at h
  | x :: s, y :: t, h => by
    show (((x ^^^ y) ^^^ y) :: List.zipWith Nat.xor (List.zipWith Nat.xor s t) t) = x :: s
    rw [Nat.xor_cancel_right, zipWith_xor_cancel s t (by simpa using h)]

/-- Left-cancellation for pointwise XOR. -/
theorem zipWith_xor_left_cancel : ∀ (s t t' : List Nat),
    t.length = t'.length → t.length ≤ s.length →
    List.zipWith Nat.xor s t = List.zipWith Nat.xor s t' → t = t'
  | _, [], [], _, _, _ => rfl
  | s, y :: t, [], h, _, _ => by simp at h
  | s, [], y' :: t', h, _, _ => by simp at h
  | [], y :: t, y' :: t', _, h2, _ => by simp at h2
  | x :: s, y :: t, y' :: t', h, h2, heq => by
    rw [List.zipWith_cons_cons, List.zipWith_cons_cons, List.cons.injEq] at heq
    obtain ⟨hhead, htail⟩ := heq
    have hhead2 : x ^^^ y = x ^^^ y' := hhead
    have hy : y = y' := by
      calc y = x ^^^ (x ^^^ y) := by rw [Nat.xor_cancel_left]
        _ = x ^^^ (x ^^^ y') := by rw [hhead2]
        _ = y' := by rw [Nat.xor_cancel_left]
    have ht : t = t' :=
      zipWith_xor_left_cancel s t t' (by simpa using h) (by simpa using h2) htail
    rw [hy, ht]

/-- Right-cancellation for pointwise XOR. -/
theorem zipWith_xor_right_cancel : ∀ (s s' t : List Nat),
    s.length = s'.length → s.length ≤ t.length →
    List.zipWith Nat.xor s t = List.zipWith Nat.xor s' t → s = s'
  | [], [], _, _, _, _ => rfl
  | x :: s, [], _, h, _, _ => by simp at h
  | [], x' :: s', _, h, _, _ => by simp at h
  | x :: s, x' :: s', [], _, h2, _ => by simp at h2
  | x :: s, x' :: s', y :: t, h, h2, heq => by
    rw [List.zipWith_cons_cons, List.zipWith_cons_cons, List.cons.injEq] at heq
    obtain ⟨hhead, htail⟩ := heq
    have hhead2 : x ^^^ y = x' ^^^ y := hhead
    have hx : x = x' := by
      calc x = (x ^^^ y) ^^^ y := by rw [Nat.xor_cancel_right]
        _ = (x' ^^^ y) ^^^ y := by rw [hhead2]
        _ = x' := by rw [Nat.xor_cancel_right]
    have hs : s = s' :=
      zipWith_xor_right_cancel s s' t (by simpa using h) (by simpa using h2) htail
    rw [hx, hs]

/-- A list of length 16 is literally sixteen elements. -/
theorem exists16 (s : List Nat) (h : s.length = 16) :
    ∃ b0 b1 b2 b3 b4 b5 b6 b7 b8 b9 b10 b11 b12 b13 b14 b15,
      s = [b0, b1, b2, b3, b4, b5, b6, b7, b8, b9, b10, b11, b12, b13, b14, b15] := by
  obtain ⟨b0, s, rfl⟩ := List.exists_of_length_succ s h
  simp only [List.length_cons, Nat.succ.injEq] at h
  obtain ⟨b1, s, rfl⟩ := List.exists_of_length_succ s h
  simp only [List.length_cons, Nat.succ.injEq] at h
  obtain ⟨b2, s, rfl⟩ := List.exists_of_length_succ s h
  simp only [List.length_cons, Nat.succ.injEq] at h
  obtain ⟨b3, s, rfl⟩ := List.exists_of_length_succ s h
  simp only [List.length_cons, Nat.succ.injEq] at h
  obtain ⟨b4, s, rfl⟩ := List.exists_of_length_succ s h
  simp only [List.length_cons, Nat.succ.injEq] at h
  obtain ⟨b5, s, rfl⟩ := List.exists_of_length_succ s h
  simp only [List.length_cons, Nat.succ.injEq] at h
  obtain ⟨b6, s, rfl⟩ := List.exists_of_length_succ s h
  simp only [List.length_cons, Nat.succ.injEq] at h
  obtain ⟨b7, s, rfl⟩ := List.exists_of_length_succ s h
  simp only [List.length_cons, Nat.succ.injEq] at h
  obtain ⟨b8, s, rfl⟩ := List.exists_of_length_succ s h
  simp only [List.length_cons, Nat.succ.injEq] at h
  obtain ⟨b9, s, rfl⟩ := List.exists_of_length_succ s h
  simp only [List.length_cons, Nat.succ.injEq] at h
  obtain ⟨b10, s, rfl⟩ := List.exists_of_length_succ s h
  simp only [List.length_cons, Nat.succ.injEq] at h
  obtain ⟨b11, s, rfl⟩ := List.exists_of_length_succ s h
  simp only [List.length_cons, Nat.succ.injEq] at h
  obtain ⟨b12, s, rfl⟩ := List.exists_of_length_succ s h
  simp only [List.length_cons, Nat.succ.injEq] at h
  obtain ⟨b13, s, rfl⟩ := List.exists_of_length_succ s h
  simp only [List.length_cons, Nat.succ.injEq] at h
  obtain ⟨b14, s, rfl⟩ := List.exists_of_length_succ s h
  simp only [List.length_cons, Nat.succ.injEq] at h
  obtain ⟨b15, s, rfl⟩ := List.exists_of_length_succ s h
  simp only [List.length_cons, Nat.succ.injEq] at h
  have : s = [] := List.length_eq_zero.mp h
  subst this
  exact ⟨b0, b1, b2, b3, b4, b5, b6, b7, b8, b9, b10, b11, b12, b13, b14, b15, rfl⟩

/-! ## State-operation inverse and preservation lemmas -/

namespace AES256Impl

theorem subBytes_length (s : List Nat) : (subBytes s).length = s.length :=
  List.length_map s sb

theorem invSubBytes_length (s : List Nat) : (invSubBytes s).length = s.length :=
  List.length_map s rsb

theorem subBytes_bytes (s : List Nat) : IsBytes (subBytes s) := by
  intro b hb
  obtain ⟨a, _, rfl⟩ := List.mem_map.mp hb
  exact sb_lt a

theorem invSubBytes_bytes (s : List Nat) : IsBytes (invSubBytes s) := by
  intro b hb
  obtain ⟨a, _, rfl⟩ := List.mem_map.mp hb
  exact rsb_lt a

theorem invSubBytes_subBytes (s : List Nat) (h : IsBytes s) :
    invSubBytes (subBytes s) = s := by
  show (s.map sb).map rsb = s
  rw [List.map_map]
  calc s.map (rsb ∘ sb) = s.map id := List.map_congr_left (fun a ha => rsb_sb a (h a ha))
    _ = s := List.map_id s

theorem subBytes_invSubBytes (s : List Nat) (h : IsBytes s) :
    subBytes (invSubBytes s) = s := by
  show (s.map rsb).map sb = s
  rw [List.map_map]
  calc s.map (sb ∘ rsb) = s.map id := List.map_congr_left (fun a ha => sb_rsb a (h a ha))
    _ = s := List.map_id s

theorem invShiftRows_shiftRows (s : List Nat) (h : s.length = 16) :
    invShiftRows (shiftRows s) = s := by
  obtain ⟨b0, b1, b2, b3, b4, b5, b6, b7, b8, b9, b10, b11, b12, b13, b14, b15, rfl⟩ :=
    exists16 s h
  rfl

theorem shiftRows_invShiftRows (s : List Nat) (h : s.length = 16) :
    shiftRows (invShiftRows s) = s := by
  obtain ⟨b0, b1, b2, b3, b4, b5, b6, b7, b8, b9, b10, b11, b12, b13, b14, b15, rfl⟩ :=
    exists16 s h
  rfl

theorem shiftRows_length (s : List Nat) (h : s.length = 16) :
    (shiftRows s).length = 16 := by
  obtain ⟨b0, b1, b2, b3, b4, b5, b6, b7, b8, b9, b10, b11, b12, b13, b14, b15, rfl⟩ :=
    exists16 s h
  rfl

theorem invShiftRows_length (s : List Nat) (h : s.length = 16) :
    (invShiftRows s).length = 16 := by
  obtain ⟨b0, b1, b2, b3, b4, b5, b6, b7, b8, b9, b10, b11, b12, b13, b14, b15, rfl⟩ :=
    exists16 s h
  rfl

theorem shiftRows_bytes (s : List Nat) (h : s.length = 16) (hb : IsBytes s) :
    IsBytes (shiftRows s) := by
  obtain ⟨b0, b1, b2, b3, b4, b5, b6, b7, b8, b9, b10, b11, b12, b13, b14, b15, rfl⟩ :=
    exists16 s h
  intro x hx
  simp only [shiftRows, List.mem_cons, List.not_mem_nil, or_false] at hx
  rcases hx with rfl|rfl|rfl|rfl|rfl|rfl|rfl|rfl|rfl|rfl|rfl|rfl|rfl|rfl|rfl|rfl <;>
    exact hb _ (by simp)

theorem invShiftRows_bytes (s : List Nat) (h : s.length = 16) (hb : IsBytes s) :
    IsBytes (invShiftRows s) := by
  obtain ⟨b0, b1, b2, b3, b4, b5, b6, b7, b8, b9, b10, b11, b12, b13, b14, b15, rfl⟩ :=
    exists16 s h
  intro x hx
  simp only [invShiftRows, List.mem_cons, List.not_mem_nil, or_false] at hx
  rcases hx with rfl|rfl|rfl|rfl|rfl|rfl|rfl|rfl|rfl|rfl|rfl|rfl|rfl|rfl|rfl|rfl <;>
    exact hb _ (by simp)

theorem mixColumns_length : ∀ s : List Nat, (mixColumns s).length = s.length
  | [] => rfl
  | [_] => rfl
  | [_, _] => rfl
  | [_, _, _] => rfl
  | a0 :: a1 :: a2 :: a3 :: rest => by
    rw [mixColumns_cons4]
    simp only [List.length_cons, mixColumns_length rest]

theorem invMixColumns_length : ∀ s : List Nat, (invMixColumns s).length = s.length
  | [] => rfl
  | [_] => rfl
  | [_, _] => rfl
  | [_, _, _] => rfl
  | a0 :: a1 :: a2 :: a3 :: rest => by
    rw [invMixColumns_cons4]
    simp only [List.length_cons, invMixColumns_length rest]

theorem mixColumns_bytes : ∀ s : List Nat, IsBytes s → IsBytes (mixColumns s)
  | [], h => h
  | [_], h => h
  | [_, _], h => h
  | [_, _, _], h => h
  | a0 :: a1 :: a2 :: a3 :: rest, h => by
    have h0 : a0 < 256 := h a0 (by simp)
    have h1 : a1 < 256 := h a1 (by simp)
    have h2 : a2 < 256 := h a2 (by simp)
    have h3 : a3 < 256 := h a3 (by simp)
    have hrest : IsBytes rest := fun b hbm => h b (by simp [hbm])
    rw [mixColumns_cons4]
    rw [isBytes_cons, isBytes_cons, isBytes_cons, isBytes_cons]
    refine ⟨?_, ?_, ?_, ?_, mixColumns_bytes rest hrest⟩ <;>
      apply Nat.xor_lt_two_pow (n := 8) <;>
      first
        | exact h0
        | exact h1
        | exact h2
        | exact h3
        | exact gmul_lt _ _ h0
        | exact gmul_lt _ _ h1
        | exact gmul_lt _ _ h2
        | exact gmul_lt _ _ h3
        | (apply Nat.xor_lt_two_pow (n := 8) <;>
            first
              | exact h0
              | exact h1
              | exact h2
              | exact h3
              | exact gmul_lt _ _ h0
              | exact gmul_lt _ _ h1
              | exact gmul_lt _ _ h2
              | exact gmul_lt _ _ h3
              | (apply Nat.xor_lt_two_pow (n := 8) <;>
                  first
                    | exact h0
                    | exact h1
                    | exact h2
                    | exact h3
                    | exact gmul_lt _ _ h0
                    | exact gmul_lt _ _ h1
                    | exact gmul_lt _ _ h2
                    | exact gmul_lt _ _ h3))

theorem invMixColumns_bytes : ∀ s : List Nat, IsBytes s → IsBytes (invMixColumns s)
  | [], h => h
  | [_], h => h
  | [_, _], h => h
  | [_, _, _], h => h
  | a0 :: a1 :: a2 :: a3 :: rest, h => by
    have h0 : a0 < 256 := h a0 (by simp)
    have h1 : a1 < 256 := h a1 (by simp)
    have h2 : a2 < 256 := h a2 (by simp)
    have h3 : a3 < 256 := h a3 (by simp)
    have hrest : IsBytes rest := fun b hbm => h b (by simp [hbm])
    rw [invMixColumns_cons4]
    rw [isBytes_cons, isBytes_cons, isBytes_cons, isBytes_cons]
    refine ⟨?_, ?_, ?_, ?_, invMixColumns_bytes rest hrest⟩ <;>
      apply Nat.xor_lt_two_pow (n := 8) <;>
      first
        | exact gmul_lt _ _ h0
        | exact gmul_lt _ _ h1
        | exact gmul_lt _ _ h2
        | exact gmul_lt _ _ h3
        | (apply Nat.xor_lt_two_pow (n := 8) <;>
            first
              | exact gmul_lt _ _ h0
              | exact gmul_lt _ _ h1
              | exact gmul_lt _ _ h2
              | exact gmul_lt _ _ h3
              | (apply Nat.xor_lt_two_pow (n := 8) <;>
                  first
                    | exact gmul_lt _ _ h0
                    | exact gmul_lt _ _ h1
                    | exact gmul_lt _ _ h2
                    | exact gmul_lt _ _ h3))

theorem roundKeySlice_length (rk : List Nat) (r : Nat) (hrk : rk.length = 240)
    (hr : r ≤ 14) : ((rk.drop (r * 16)).take 16).length = 16 := by
  simp only [List.length_take, List.length_drop, hrk]
  omega

theorem addRoundKey_length (rk : List Nat) (r : Nat) (s : List Nat)
    (hrk : rk.length = 240) (hr : r ≤ 14) (hs : s.length = 16) :
    (addRoundKey rk r s).length = 16 := by
  simp only [addRoundKey, List.length_zipWith, hs, roundKeySlice_length rk r hrk hr]
  omega

theorem addRoundKey_bytes (rk : List Nat) (r : Nat) (s : List Nat)
    (hrkb : IsBytes rk) (hsb : IsBytes s) : IsBytes (addRoundKey rk r s) :=
  isBytes_zipWith_xor hsb (isBytes_take _ (isBytes_drop _ hrkb))

theorem addRoundKey_cancel (rk : List Nat) (r : Nat) (s : List Nat)
    (hrk : rk.length = 240) (hr : r ≤ 14) (hs : s.length = 16) :
    addRoundKey rk r (addRoundKey rk r s) = s := by
  apply zipWith_xor_cancel
  rw [hs, roundKeySlice_length rk r hrk hr]

/-- One forward round keeps the state a valid 16-byte block. -/
theorem encStep_valid (rk : List Nat) (hrk : rk.length = 240) (hrkb : IsBytes rk)
    (r : Nat) (hr : r ≤ 14) (s : List Nat) (hs : s.length = 16) (hsb : IsBytes s) :
    (addRoundKey rk r (mixColumns (shiftRows (subBytes s)))).length = 16 ∧
      IsBytes (addRoundKey rk r (mixColumns (shiftRows (subBytes s)))) := by
  have l1 : (subBytes s).length = 16 := by rw [subBytes_length, hs]
  have b1 : IsBytes (subBytes s) := subBytes_bytes s
  have l2 : (shiftRows (subBytes s)).length = 16 := shiftRows_length _ l1
  have b2 : IsBytes (shiftRows (subBytes s)) := shiftRows_bytes _ l1 b1
  have l3 : (mixColumns (shiftRows (subBytes s))).length = 16 := by
    rw [mixColumns_length, l2]
  have b3 : IsBytes (mixColumns (shiftRows (subBytes s))) := mixColumns_bytes _ b2
  exact ⟨addRoundKey_length rk r _ hrk hr l3, addRoundKey_bytes rk r _ hrkb b3⟩

/-- One inverse round keeps the state a valid 16-byte block. -/
theorem decStep_valid (rk : List Nat) (hrk : rk.length = 240) (hrkb : IsBytes rk)
    (r : Nat) (hr : r ≤ 14) (s : List Nat) (hs : s.length = 16) (hsb : IsBytes s) :
    (invMixColumns (addRoundKey rk r (invSubBytes (invShiftRows s)))).length = 16 ∧
      IsBytes (invMixColumns (addRoundKey rk r (invSubBytes (invShiftRows s)))) := by
  have l1 : (invShiftRows s).length = 16 := invShiftRows_length _ hs
  have b1 : IsBytes (invShiftRows s) := invShiftRows_bytes _ hs hsb
  have l2 : (invSubBytes (invShiftRows s)).length = 16 := by rw [invSubBytes_length, l1]
  have b2 : IsBytes (invSubBytes (invShiftRows s)) := invSubBytes_bytes _
  have l3 : (addRoundKey rk r (invSubBytes (invShiftRows s))).length = 16 :=
    addRoundKey_length rk r _ hrk hr l2
  have b3 : IsBytes (addRoundKey rk r (invSubBytes (invShiftRows s))) :=
    addRoundKey_bytes rk r _ hrkb b2
  constructor
  · rw [invMixColumns_length, l3]
  · exact invMixColumns_bytes _ b3

theorem encRounds_unfold (rk : List Nat) (a b : Nat) (s : List Nat) (hab : a < b) :
    encRounds rk a b s
      = encRounds rk (a + 1) b (addRoundKey rk a (mixColumns (shiftRows (subBytes s)))) := by
  unfold encRounds
  rw [show b - a = (b - (a + 1)) + 1 from by omega]
  rfl

theorem encRounds_stop (rk : List Nat) (a b : Nat) (s : List Nat) (hab : ¬ a < b) :
    encRounds rk a b s = s := by
  unfold encRounds
  rw [show b - a = 0 from by omega]
  rfl

theorem decRounds_unfold (rk : List Nat) (a b : Nat) (s : List Nat)
    (h1 : 1 ≤ a) (hab : a ≤ b) :
    decRounds rk a b s
      = decRounds rk a (b - 1)
          (invMixColumns (addRoundKey rk b (invSubBytes (invShiftRows s)))) := by
  unfold decRounds
  rw [show b + 1 - a = ((b - 1) + 1 - a) + 1 from by omega]
  rfl

theorem decRounds_stop (rk : List Nat) (a b : Nat) (s : List Nat) (hab : b < a) :
    decRounds rk a b s = s := by
  unfold decRounds
  rw [show b + 1 - a = 0 from by omega]
  rfl

theorem encRounds_valid (rk : List Nat) (hrk : rk.length = 240) (hrkb : IsBytes rk)
    (a b : Nat) (hb : b ≤ 15) (s : List Nat) (hs : s.length = 16) (hsb : IsBytes s) :
    (encRounds rk a b s).length = 16 ∧ IsBytes (encRounds rk a b s) := by
  by_cases hab : a < b
  · rw [encRounds_unfold rk a b s hab]
    have hst := encStep_valid rk hrk hrkb a (by omega) s hs hsb
    exact encRounds_valid rk hrk hrkb (a+1) b hb _ hst.1 hst.2
  · rw [encRounds_stop rk a b s hab]
    exact ⟨hs, hsb⟩
termination_by b - a
decreasing_by omega

theorem decRounds_valid (rk : List Nat) (hrk : rk.length = 240) (hrkb : IsBytes rk)
    (a b : Nat) (ha : 1 ≤ a) (hb : b ≤ 14) (s : List Nat) (hs : s.length = 16)
    (hsb : IsBytes s) :
    (decRounds rk a b s).length = 16 ∧ IsBytes (decRounds rk a b s) := by
  by_cases hab : a ≤ b
  · rw [decRounds_unfold rk a b s ha hab]
    have hst := decStep_valid rk hrk hrkb b hb s hs hsb
    exact decRounds_valid rk hrk hrkb a (b-1) ha (by omega) _ hst.1 hst.2
  · rw [decRounds_stop rk a b s (by omega)]
    exact ⟨hs, hsb⟩
termination_by b + 1 - a
decreasing_by omega

/-- Unrolling the last round of the forward round loop. -/
theorem encRounds_succ_right (rk : List Nat) (a b : Nat) (s : List Nat) (hab : a ≤ b) :
    encRounds rk a (b+1) s
      = addRoundKey rk b (mixColumns (shiftRows (subBytes (encRounds rk a b s)))) := by
  rcases Nat.eq_or_lt_of_le hab with rfl | hlt
  · rw [encRounds_unfold rk a (a+1) s (by omega)]
    rw [encRounds_stop rk (a+1) (a+1) _ (by omega)]
    rw [encRounds_stop rk a a s (by omega)]
  · rw [encRounds_unfold rk a (b+1) s (by omega)]
    rw [encRounds_succ_right rk (a+1) b _ (by omega)]
    rw [encRounds_unfold rk a b s hlt]
termination_by b - a
decreasing_by omega

/-- Unrolling the last-applied (lowest) round of the inverse round loop. -/
theorem decRounds_last (rk : List Nat) (a b : Nat) (s : List Nat)
    (h1 : 1 ≤ a) (hab : a ≤ b) :
    decRounds rk a b s
      = invMixColumns (addRoundKey rk a
          (invSubBytes (invShiftRows (decRounds rk (a+1) b s)))) := by
  rcases Nat.eq_or_lt_of_le hab with rfl | hlt
  · rw [decRounds_unfold rk a a s h1 (Nat.le_refl a)]
    rw [decRounds_stop rk a (a-1) _ (by omega)]
    rw [decRounds_stop rk (a+1) a s (by omega)]
  · rw [decRounds_unfold rk a b s h1 hab]
    rw [decRounds_last rk a (b-1) _ h1 (by omega)]
    rw [decRounds_unfold rk (a+1) b s (by omega) (by omega)]
termination_by b - a
decreasing_by omega

end AES256Impl

/-! ## The AES-256 block cipher round telescopes -/

namespace AES256Impl

/-- Peeling matched rounds of `decRounds` against `encRounds` from the top. -/
theorem dec_enc_telescope (rk : List Nat) (hrk : rk.length = 240) (hrkb : IsBytes rk) :
    ∀ r, r ≤ 13 → ∀ s : List Nat, s.length = 16 → IsBytes s →
      decRounds rk 1 r (shiftRows (subBytes (encRounds rk 1 (r+1) s)))
        = shiftRows (subBytes s) := by
  intro r
  induction r with
  | zero =>
    intro _ s hs hsb
    rw [encRounds_stop rk 1 1 s (by omega)]
    rw [decRounds_stop rk 1 0 _ (by omega)]
  | succ r ih =>
    intro hr s hs hsb
    obtain ⟨hElen, hEb⟩ := encRounds_valid rk hrk hrkb 1 (r+1) (by omega) s hs hsb
    rw [encRounds_succ_right rk 1 (r+1) s (by omega)]
    have hunf : ∀ x, decRounds rk 1 (r+1) x
        = decRounds rk 1 r
            (invMixColumns (addRoundKey rk (r+1) (invSubBytes (invShiftRows x)))) := by
      intro x
      rw [decRounds_unfold rk 1 (r+1) x (by omega) (by omega), Nat.add_sub_cancel]
    rw [hunf]
    have lsbE : (subBytes (encRounds rk 1 (r+1) s)).length = 16 := by
      rw [subBytes_length, hElen]
    have bsbE : IsBytes (subBytes (encRounds rk 1 (r+1) s)) := subBytes_bytes _
    have lsrE : (shiftRows (subBytes (encRounds rk 1 (r+1) s))).length = 16 :=
      shiftRows_length _ lsbE
    have bsrE : IsBytes (shiftRows (subBytes (encRounds rk 1 (r+1) s))) :=
      shiftRows_bytes _ lsbE bsbE
    have lmc : (mixColumns (shiftRows (subBytes (encRounds rk 1 (r+1) s)))).length = 16 := by
      rw [mixColumns_length, lsrE]
    have bmc : IsBytes (mixColumns (shiftRows (subBytes (encRounds rk 1 (r+1) s)))) :=
      mixColumns_bytes _ bsrE
    have lark : (addRoundKey rk (r+1)
        (mixColumns (shiftRows (subBytes (encRounds rk 1 (r+1) s))))).length = 16 :=
      addRoundKey_length rk (r+1) _ hrk (by omega) lmc
    have bark : IsBytes (addRoundKey rk (r+1)
        (mixColumns (shiftRows (subBytes (encRounds rk 1 (r+1) s))))) :=
      addRoundKey_bytes rk (r+1) _ hrkb bmc
    have lsb2 : (subBytes (addRoundKey rk (r+1)
        (mixColumns (shiftRows (subBytes (encRounds rk 1 (r+1) s)))))).length = 16 := by
      rw [subBytes_length, lark]
    rw [invShiftRows_shiftRows _ lsb2]
    rw [invSubBytes_subBytes _ bark]
    rw [addRoundKey_cancel rk (r+1) _ hrk (by omega) lmc]
    rw [invMix_mix _ bsrE]
    exact ih (by omega) s hs hsb

/-- Peeling matched rounds of `encRounds` against `decRounds` from the bottom. -/
theorem enc_dec_telescope (rk : List Nat) (hrk : rk.length = 240) (hrkb : IsBytes rk) :
    ∀ k, k ≤ 13 → ∀ u : List Nat, u.length = 16 → IsBytes u →
      encRounds rk (14 - k) 14 (invSubBytes (invShiftRows (decRounds rk (14 - k) 13 u)))
        = invSubBytes (invShiftRows u) := by
  intro k
  induction k with
  | zero =>
    intro _ u hu hub
    rw [show (14 - 0 : Nat) = 14 from rfl]
    rw [decRounds_stop rk 14 13 u (by omega)]
    rw [encRounds_stop rk 14 14 _ (by omega)]
  | succ k ih =>
    intro hk u hu hub
    have ha : (14 - (k+1) : Nat) = 13 - k := by omega
    rw [ha]
    have ha1 : (1 : Nat) ≤ 13 - k := by omega
    have ha2 : (13 - k : Nat) ≤ 13 := by omega
    rw [decRounds_last rk (13 - k) 13 u ha1 ha2]
    have hencunf : ∀ x, encRounds rk (13 - k) 14 x
        = encRounds rk (13 - k + 1) 14
            (addRoundKey rk (13 - k) (mixColumns (shiftRows (subBytes x)))) :=
      fun x => encRounds_unfold rk (13 - k) 14 x (by omega)
    rw [hencunf]
    have hY := decRounds_valid rk hrk hrkb (13 - k + 1) 13 (by omega) (by omega) u hu hub
    have lY1 : (invShiftRows (decRounds rk (13 - k + 1) 13 u)).length = 16 :=
      invShiftRows_length _ hY.1
    have bY1 : IsBytes (invShiftRows (decRounds rk (13 - k + 1) 13 u)) :=
      invShiftRows_bytes _ hY.1 hY.2
    have lY2 : (invSubBytes (invShiftRows (decRounds rk (13 - k + 1) 13 u))).length = 16 := by
      rw [invSubBytes_length, lY1]
    have bY2 : IsBytes (invSubBytes (invShiftRows (decRounds rk (13 - k + 1) 13 u))) :=
      invSubBytes_bytes _
    have lY3 : (addRoundKey rk (13 - k)
        (invSubBytes (invShiftRows (decRounds rk (13 - k + 1) 13 u)))).length = 16 :=
      addRoundKey_length rk (13 - k) _ hrk (by omega) lY2
    have bY3 : IsBytes (addRoundKey rk (13 - k)
        (invSubBytes (invShiftRows (decRounds rk (13 - k + 1) 13 u)))) :=
      addRoundKey_bytes rk (13 - k) _ hrkb bY2
    have hw_len : (invMixColumns (addRoundKey rk (13 - k)
        (invSubBytes (invShiftRows (decRounds rk (13 - k + 1) 13 u))))).length = 16 := by
      rw [invMixColumns_length, lY3]
    have hw_bytes : IsBytes (invMixColumns (addRoundKey rk (13 - k)
        (invSubBytes (invShiftRows (decRounds rk (13 - k + 1) 13 u))))) :=
      invMixColumns_bytes _ bY3
    rw [subBytes_invSubBytes _ (invShiftRows_bytes _ hw_len hw_bytes)]
    rw [shiftRows_invShiftRows _ hw_len]
    rw [mix_invMix _ bY3]
    rw [addRoundKey_cancel rk (13 - k) _ hrk (by omega) lY2]
    have hb2 : (14 - k : Nat) = 13 - k + 1 := by omega
    have hih := ih (by omega) u hu hub
    rw [hb2] at hih
    exact hih

/-- `encryptBlock` keeps a valid 16-byte block valid. -/
theorem encryptBlock_valid (rk : List Nat) (hrk : rk.length = 240) (hrkb : IsBytes rk)
    (blk : List Nat) (hlen : blk.length = 16) (hbytes : IsBytes blk) :
    (encryptBlock rk blk).length = 16 ∧ IsBytes (encryptBlock rk blk) := by
  have hs0l := addRoundKey_length rk 0 blk hrk (by omega) hlen
  have hs0b := addRoundKey_bytes rk 0 blk hrkb hbytes
  have hE := encRounds_valid rk hrk hrkb 1 14 (by omega) _ hs0l hs0b
  have lsb : (subBytes (encRounds rk 1 14 (addRoundKey rk 0 blk))).length = 16 := by
    rw [subBytes_length, hE.1]
  have bsb : IsBytes (subBytes (encRounds rk 1 14 (addRoundKey rk 0 blk))) :=
    subBytes_bytes _
  have lsr := shiftRows_length _ lsb
  have bsr := shiftRows_bytes _ lsb bsb
  exact ⟨addRoundKey_length rk 14 _ hrk (by omega) lsr,
         addRoundKey_bytes rk 14 _ hrkb bsr⟩

/-- `decryptBlock` keeps a valid 16-byte block valid. -/
theorem decryptBlock_valid (rk : List Nat) (hrk : rk.length = 240) (hrkb : IsBytes rk)
    (blk : List Nat) (hlen : blk.length = 16) (hbytes : IsBytes blk) :
    (decryptBlock rk blk).length = 16 ∧ IsBytes (decryptBlock rk blk) := by
  have hul := addRoundKey_length rk 14 blk hrk (by omega) hlen
  have hub := addRoundKey_bytes rk 14 blk hrkb hbytes
  have hY := decRounds_valid rk hrk hrkb 1 13 (by omega) (by omega) _ hul hub
  have lsr := invShiftRows_length _ hY.1
  have bsr := invShiftRows_bytes _ hY.1 hY.2
  have lsb : (invSubBytes (invShiftRows (decRounds rk 1 13
      (addRoundKey rk 14 blk)))).length = 16 := by
    rw [invSubBytes_length, lsr]
  have bsb : IsBytes (invSubBytes (invShiftRows (decRounds rk 1 13
      (addRoundKey rk 14 blk)))) := invSubBytes_bytes _
  exact ⟨addRoundKey_length rk 0 _ hrk (by omega) lsb,
         addRoundKey_bytes rk 0 _ hrkb bsb⟩

/-- Decrypting an encrypted block recovers it. -/
theorem decryptBlock_encryptBlock (rk : List Nat) (hrk : rk.length = 240)
    (hrkb : IsBytes rk) (blk : List Nat) (hlen : blk.length = 16)
    (hbytes : IsBytes blk) : decryptBlock rk (encryptBlock rk blk) = blk := by
  show addRoundKey rk 0 (invSubBytes (invShiftRows (decRounds rk 1 13
      (addRoundKey rk 14 (addRoundKey rk 14 (shiftRows (subBytes
        (encRounds rk 1 14 (addRoundKey rk 0 blk))))))))) = blk
  have hs0l := addRoundKey_length rk 0 blk hrk (by omega) hlen
  have hs0b := addRoundKey_bytes rk 0 blk hrkb hbytes
  have hE := encRounds_valid rk hrk hrkb 1 14 (by omega) _ hs0l hs0b
  have lsb : (subBytes (encRounds rk 1 14 (addRoundKey rk 0 blk))).length = 16 := by
    rw [subBytes_length, hE.1]
  have lsr := shiftRows_length _ lsb
  rw [addRoundKey_cancel rk 14 _ hrk (by omega) lsr]
  have ht := dec_enc_telescope rk hrk hrkb 13 (by omega) _ hs0l hs0b
  norm_num at ht
  rw [ht]
  rw [invShiftRows_shiftRows _ (by rw [subBytes_length, hs0l])]
  rw [invSubBytes_subBytes _ hs0b]
  exact addRoundKey_cancel rk 0 blk hrk (by omega) hlen

/-- Encrypting a decrypted block recovers it. -/
theorem encryptBlock_decryptBlock (rk : List Nat) (hrk : rk.length = 240)
    (hrkb : IsBytes rk) (blk : List Nat) (hlen : blk.length = 16)
    (hbytes : IsBytes blk) : encryptBlock rk (decryptBlock rk blk) = blk := by
  show addRoundKey rk 14 (shiftRows (subBytes (encRounds rk 1 14
      (addRoundKey rk 0 (addRoundKey rk 0 (invSubBytes (invShiftRows
        (decRounds rk 1 13 (addRoundKey rk 14 blk))))))))) = blk
  have hul := addRoundKey_length rk 14 blk hrk (by omega) hlen
  have hub := addRoundKey_bytes rk 14 blk hrkb hbytes
  have hY := decRounds_valid rk hrk hrkb 1 13 (by omega) (by omega) _ hul hub
  have lsr := invShiftRows_length _ hY.1
  have lsb : (invSubBytes (invShiftRows (decRounds rk 1 13
      (addRoundKey rk 14 blk)))).length = 16 := by
    rw [invSubBytes_length, lsr]
  rw [addRoundKey_cancel rk 0 _ hrk (by omega) lsb]
  have ht := enc_dec_telescope rk hrk hrkb 13 (by omega) _ hul hub
  norm_num at ht
  rw [ht]
  rw [subBytes_invSubBytes _ (invShiftRows_bytes _ hul hub)]
  rw [shiftRows_invShiftRows _ hul]
  exact addRoundKey_cancel rk 14 blk hrk (by omega) hlen

end AES256Impl

/-! ## Key-expansion characterization -/

theorem exists4 (s : List Nat) (h : s.length = 4) :
    ∃ b0 b1 b2 b3, s = [b0, b1, b2, b3] := by
  obtain ⟨b0, s, rfl⟩ := List.exists_of_length_succ s h
  simp only [List.length_cons, Nat.succ.injEq] at h
  obtain ⟨b1, s, rfl⟩ := List.exists_of_length_succ s h
  simp only [List.length_cons, Nat.succ.injEq] at h
  obtain ⟨b2, s, rfl⟩ := List.exists_of_length_succ s h
  simp only [List.length_cons, Nat.succ.injEq] at h
  obtain ⟨b3, s, rfl⟩ := List.exists_of_length_succ s h
  simp only [List.length_cons, Nat.succ.injEq] at h
  have : s = [] := List.length_eq_zero.mp h
  subst this
  exact ⟨b0, b1, b2, b3, rfl⟩

namespace AES256Impl

theorem rkWord_length (rk : List Nat) (j : Nat) (h : 4 * j + 4 ≤ rk.length) :
    (rkWord rk j).length = 4 := by
  simp only [rkWord, List.length_take, List.length_drop]
  omega

theorem rkWord_bytes (rk : List Nat) (j : Nat) (h : IsBytes rk) :
    IsBytes (rkWord rk j) := isBytes_take _ (isBytes_drop _ h)

theorem ksTransform_length (w : List Nat) (hw : w.length = 4) (i : Nat) :
    (ksTransform w i).length = 4 := by
  obtain ⟨t0, t1, t2, t3, rfl⟩ := exists4 w hw
  unfold ksTransform
  split_ifs <;> rfl

theorem ksTransform_eq_spec (w : List Nat) (hw : w.length = 4) (i : Nat) :
    ksTransform w i = specKsTransform w i := by
  obtain ⟨t0, t1, t2, t3, rfl⟩ := exists4 w hw
  unfold ksTransform specKsTransform rotWord
  split_ifs <;> rfl

theorem rcon_lt (j : Nat) : rcon.getD j 0 < 256 := by
  rcases Nat.lt_or_ge j 11 with h | h
  · exact (by decide : ∀ x : Fin 11, rcon.getD x.val 0 < 256) ⟨j, h⟩
  · rw [List.getD_eq_getElem?_getD, List.getElem?_eq_none (by simp [rcon]; omega)]
    norm_num

theorem ksTransform_bytes (w : List Nat) (hw : w.length = 4) (hwb : IsBytes w)
    (i : Nat) : IsBytes (ksTransform w i) := by
  obtain ⟨t0, t1, t2, t3, rfl⟩ := exists4 w hw
  unfold ksTransform
  split_ifs with h1 h2
  · show IsBytes [sb t1 ^^^ rcon.getD (i / 8) 0, sb t2, sb t3, sb t0]
    rw [isBytes_cons, isBytes_cons, isBytes_cons, isBytes_cons]
    refine ⟨Nat.xor_lt_two_pow (n := 8) (sb_lt t1) (rcon_lt _),
            sb_lt t2, sb_lt t3, sb_lt t0, ?_⟩
    intro b hb
    simp at hb
  · intro b hb
    obtain ⟨a, _, rfl⟩ := List.mem_map.mp hb
    exact sb_lt a
  · exact hwb

/-- The new word appended at step `i` of the key-expansion loop. -/
theorem keyExpansionAux_step (rk : List Nat) (i : Nat) (h : i < 60) :
    keyExpansionAux rk i
      = keyExpansionAux
          (rk ++ List.zipWith Nat.xor (rkWord rk (i - 8))
            (ksTransform (rkWord rk (i - 1)) i)) (i + 1) := by
  unfold keyExpansionAux
  rw [show 60 - i = (60 - (i + 1)) + 1 from by omega]
  rfl

theorem keyExpansionAux_stop (rk : List Nat) (i : Nat) (h : ¬ i < 60) :
    keyExpansionAux rk i = rk := by
  unfold keyExpansionAux
  rw [show 60 - i = 0 from by omega]
  rfl

theorem keyExpansionAux_toPrefix (rk : List Nat) (i : Nat) :
    ∃ t, keyExpansionAux rk i = rk ++ t := by
  by_cases h : i < 60
  · rw [keyExpansionAux_step rk i h]
    obtain ⟨t, ht⟩ := keyExpansionAux_toPrefix
      (rk ++ List.zipWith Nat.xor (rkWord rk (i - 8))
        (ksTransform (rkWord rk (i - 1)) i)) (i + 1)
    exact ⟨_, by rw [ht, List.append_assoc]⟩
  · exact ⟨[], by rw [keyExpansionAux_stop rk i h, List.append_nil]⟩
termination_by 60 - i
decreasing_by omega

theorem newWord_length (rk : List Nat) (i : Nat) (hi : 8 ≤ i)
    (hlen : rk.length = 4 * i) :
    (List.zipWith Nat.xor (rkWord rk (i - 8))
      (ksTransform (rkWord rk (i - 1)) i)).length = 4 := by
  have h1 : (rkWord rk (i - 8)).length = 4 := rkWord_length rk _ (by omega)
  have h2 : (rkWord rk (i - 1)).length = 4 := rkWord_length rk _ (by omega)
  rw [List.length_zipWith, h1, ksTransform_length _ h2]
  omega

theorem keyExpansionAux_length (rk : List Nat) (i : Nat) (hi : 8 ≤ i)
    (hle : i ≤ 60) (hlen : rk.length = 4 * i) :
    (keyExpansionAux rk i).length = 240 := by
  by_cases h : i < 60
  · rw [keyExpansionAux_step rk i h]
    apply keyExpansionAux_length _ (i + 1) (by omega) (by omega)
    rw [List.length_append, hlen, newWord_length rk i hi hlen]
    omega
  · rw [keyExpansionAux_stop rk i h, hlen]
    omega
termination_by 60 - i
decreasing_by omega

theorem keyExpansionAux_bytes (rk : List Nat) (i : Nat) (hi : 8 ≤ i)
    (hlen : rk.length = 4 * i) (hb : IsBytes rk) :
    IsBytes (keyExpansionAux rk i) := by
  by_cases h : i < 60
  · rw [keyExpansionAux_step rk i h]
    apply keyExpansionAux_bytes _ (i + 1) (by omega)
    · rw [List.length_append, hlen, newWord_length rk i hi hlen]
      omega
    · rw [isBytes_append]
      refine ⟨hb, isBytes_zipWith_xor (rkWord_bytes rk _ hb) ?_⟩
      exact ksTransform_bytes _ (rkWord_length rk _ (by omega)) (rkWord_bytes rk _ hb) i
  · rw [keyExpansionAux_stop rk i h]
    exact hb
termination_by 60 - i
decreasing_by omega

theorem rkWord_append (rk t : List Nat) (j : Nat) (h : 4 * j + 4 ≤ rk.length) :
    rkWord (rk ++ t) j = rkWord rk j := by
  unfold rkWord
  rw [List.drop_append_eq_append_drop, List.take_append_eq_append_take]
  have h1 : (List.drop (4 * j) rk).length = rk.length - 4 * j := List.length_drop ..
  have h2 : 4 - (List.drop (4 * j) rk).length = 0 := by rw [h1]; omega
  rw [h2, List.take_zero, List.append_nil]

theorem rkWord_at_append (rk w t : List Nat) (i : Nat) (hrk : rk.length = 4 * i)
    (hw : w.length = 4) : rkWord (rk ++ (w ++ t)) i = w := by
  unfold rkWord
  rw [List.drop_append_eq_append_drop, hrk]
  have h1 : List.drop (4 * i) rk = [] := by
    apply List.drop_eq_nil_of_le
    omega
  rw [h1, Nat.sub_self, List.drop_zero, List.nil_append]
  exact List.take_left' hw

/-- Every word of the final schedule from index `i` on satisfies the
recurrence `word j = word (j-8) ^ transform (word (j-1))`. -/
theorem keyExpansionAux_words (rk : List Nat) (i : Nat) (hi : 8 ≤ i)
    (hlen : rk.length = 4 * i) :
    ∀ j, i ≤ j → j < 60 →
      rkWord (keyExpansionAux rk i) j
        = List.zipWith Nat.xor (rkWord (keyExpansionAux rk i) (j - 8))
            (ksTransform (rkWord (keyExpansionAux rk i) (j - 1)) j) := by
  intro j hij hj60
  have h : i < 60 := Nat.lt_of_le_of_lt hij hj60
  rw [keyExpansionAux_step rk i h]
  by_cases hji : j = i
  · subst hji
    obtain ⟨t, ht⟩ := keyExpansionAux_toPrefix
      (rk ++ List.zipWith Nat.xor (rkWord rk (j - 8))
        (ksTransform (rkWord rk (j - 1)) j)) (j + 1)
    rw [ht, List.append_assoc]
    have hnw : (List.zipWith Nat.xor (rkWord rk (j - 8))
        (ksTransform (rkWord rk (j - 1)) j)).length = 4 := newWord_length rk j hi hlen
    rw [rkWord_at_append rk _ t j hlen hnw]
    rw [← List.append_assoc]
    rw [rkWord_append _ t (j - 8) (by rw [List.length_append, hlen, hnw]; omega)]
    rw [rkWord_append _ t (j - 1) (by rw [List.length_append, hlen, hnw]; omega)]
    rw [rkWord_append rk _ (j - 8) (by rw [hlen]; omega)]
    rw [rkWord_append rk _ (j - 1) (by rw [hlen]; omega)]
  · apply keyExpansionAux_words _ (i + 1) (by omega)
    · rw [List.length_append, hlen, newWord_length rk i hi hlen]
      omega
    · omega
    · exact hj60
termination_by 60 - i
decreasing_by omega

theorem keyExpansion_length (key : List Nat) (h : key.length = 32) :
    (keyExpansion key).length = 240 :=
  keyExpansionAux_length key 8 (by omega) (by omega) (by rw [h])

theorem keyExpansion_bytes (key : List Nat) (h : key.length = 32)
    (hb : IsBytes key) : IsBytes (keyExpansion key) :=
  keyExpansionAux_bytes key 8 (by omega) (by rw [h]) hb

theorem keyExpansion_take (key : List Nat) (h : key.length = 32) :
    (keyExpansion key).take 32 = key := by
  obtain ⟨t, ht⟩ := keyExpansionAux_toPrefix key 8
  show (keyExpansionAux key 8).take 32 = key
  rw [ht]
  exact List.take_left' h

theorem keyExpansion_words (key : List Nat) (h : key.length = 32) :
    ∀ j, 8 ≤ j → j < 60 →
      rkWord (keyExpansion key) j
        = List.zipWith Nat.xor (rkWord (keyExpansion key) (j - 8))
            (specKsTransform (rkWord (keyExpansion key) (j - 1)) j) := by
  intro j h8 h60
  have hlen : (keyExpansion key).length = 240 := keyExpansion_length key h
  have hw : (rkWord (keyExpansion key) (j - 1)).length = 4 :=
    rkWord_length _ _ (by omega)
  rw [← ksTransform_eq_spec _ hw]
  exact keyExpansionAux_words key 8 (by omega) (by rw [h]) j h8 h60

end AES256Impl

/-! ## PKCS#7 padding lemmas -/

theorem padLen_bounds (n : Nat) : 1 ≤ 16 - n % 16 ∧ 16 - n % 16 ≤ 16 := by omega

theorem pkcs7Pad_length (data : List Nat) :
    (pkcs7Pad data).length = data.length + (16 - data.length % 16) := by
  simp [pkcs7Pad]

theorem pkcs7Pad_length_mod (data : List Nat) : (pkcs7Pad data).length % 16 = 0 := by
  rw [pkcs7Pad_length]
  omega

theorem pkcs7Pad_ne_nil (data : List Nat) : pkcs7Pad data ≠ [] := by
  intro h
  have := congrArg List.length h
  rw [pkcs7Pad_length] at this
  simp at this
  omega

theorem pkcs7Pad_bytes (data : List Nat) (h : IsBytes data) :
    IsBytes (pkcs7Pad data) := by
  rw [pkcs7Pad, isBytes_append]
  refine ⟨h, ?_⟩
  intro b hb
  rw [List.eq_of_mem_replicate hb]
  omega

theorem pkcs7Pad_getLast (data : List Nat) :
    (pkcs7Pad data).getLastD 0 = 16 - data.length % 16 := by
  have hp : 16 - data.length % 16 = (16 - data.length % 16 - 1) + 1 := by omega
  rw [pkcs7Pad, hp, List.replicate_succ']
  rw [← List.append_assoc]
  exact List.getLastD_concat _ _ _

/-- Unpadding the padded data recovers it exactly. -/
theorem pkcs7Unpad_pkcs7Pad (data : List Nat) :
    pkcs7Unpad (pkcs7Pad data) = some data := by
  have hlen := pkcs7Pad_length data
  have hmod := pkcs7Pad_length_mod data
  have hlast := pkcs7Pad_getLast data
  have hdrop : (pkcs7Pad data).length - (16 - data.length % 16) = data.length := by omega
  unfold pkcs7Unpad
  rw [if_neg (by push_neg; exact ⟨pkcs7Pad_ne_nil data, hmod⟩)]
  simp only [hlast]
  rw [if_neg (by omega)]
  rw [hdrop]
  have hdropeq : (pkcs7Pad data).drop data.length
      = List.replicate (16 - data.length % 16) (16 - data.length % 16) := by
    rw [pkcs7Pad, List.drop_left]
  have htakeeq : (pkcs7Pad data).take data.length = data := by
    rw [pkcs7Pad, List.take_left]
  rw [hdropeq, htakeeq]
  rw [if_pos ?hall]
  case hall =>
    rw [List.all_eq_true]
    intro x hx
    simp [List.eq_of_mem_replicate hx]

/-- What a successful unpad tells us about its input. -/
theorem pkcs7Unpad_some (q r : List Nat) (h : pkcs7Unpad q = some r) :
    ∃ p, 1 ≤ p ∧ p ≤ 16 ∧ p ≤ q.length ∧ q.length % 16 = 0 ∧
      r.length = q.length - p ∧ q = r ++ List.replicate p p := by
  unfold pkcs7Unpad at h
  by_cases h1 : q = [] ∨ q.length % 16 ≠ 0
  · rw [if_pos h1] at h
    simp at h
  · rw [if_neg h1] at h
    push_neg at h1
    obtain ⟨hne, hmod⟩ := h1
    have hlen16 : 16 ≤ q.length := by
      have : q.length ≠ 0 := fun hz => hne (List.length_eq_zero.mp hz)
      omega
    simp only [] at h
    by_cases h2 : q.getLastD 0 < 1 ∨ q.getLastD 0 > 16
    · rw [if_pos h2] at h
      simp at h
    · rw [if_neg h2] at h
      push_neg at h2
      by_cases h3 : (q.drop (q.length - q.getLastD 0)).all
          (fun b => decide (b = q.getLastD 0))
      · rw [if_pos h3] at h
        have hr : r = q.take (q.length - q.getLastD 0) := by
          injection h with h2
          exact h2.symm
        refine ⟨q.getLastD 0, h2.1, h2.2, by omega, hmod, ?_, ?_⟩
        · rw [hr, List.length_take]
          omega
        · rw [hr]
          conv_lhs => rw [← List.take_append_drop (q.length - q.getLastD 0) q]
          congr 1
          apply List.eq_replicate_iff.mpr
          constructor
          · rw [List.length_drop]
            omega
          · intro b hb
            rw [List.all_eq_true] at h3
            simpa using h3 b hb
      · rw [if_neg h3] at h
        simp at h

/-! ## Hex codec lemmas -/

theorem bytesToHex_cons (b : Nat) (d : List Nat) :
    bytesToHex (b :: d) = hexDigitChar (b / 16) :: hexDigitChar (b % 16) :: bytesToHex d := by
  simp [bytesToHex]

theorem bytesToHex_length (d : List Nat) : (bytesToHex d).length = 2 * d.length := by
  induction d with
  | nil => rfl
  | cons b d ih =>
    rw [bytesToHex_cons]
    simp only [List.length_cons, ih]
    omega

theorem hexDigitChar_mem : ∀ n : Fin 16,
    hexDigitChar n.val ∈ "0123456789abcdef".toList := by
  decide

theorem hexCharVal_hexDigitChar : ∀ n : Fin 16,
    hexCharVal (hexDigitChar n.val) = some n.val := by
  decide

/-- Every character `bytesToHex` emits is a lowercase hex digit. -/
theorem bytesToHex_digits (d : List Nat) (hb : IsBytes d) :
    ∀ c ∈ bytesToHex d,
      c ∈ "0123456789abcdef".toList := by
  intro c hc
  obtain ⟨b, hbd, hcm⟩ := List.mem_flatMap.mp hc
  have hblt := hb b hbd
  have h1 : b / 16 < 16 := by omega
  have h2 : b % 16 < 16 := by omega
  simp only [List.mem_cons, List.not_mem_nil, or_false] at hcm
  rcases hcm with rfl | rfl
  · exact hexDigitChar_mem ⟨b / 16, h1⟩
  · exact hexDigitChar_mem ⟨b % 16, h2⟩

theorem hexPairVal_encode (b : Nat) (hb : b < 256) :
    hexPairVal (hexDigitChar (b / 16)) (hexDigitChar (b % 16)) = b := by
  have h1 : b / 16 < 16 := by omega
  have h2 : b % 16 < 16 := by omega
  unfold hexPairVal
  rw [hexCharVal_hexDigitChar ⟨b / 16, h1⟩, hexCharVal_hexDigitChar ⟨b % 16, h2⟩]
  show 16 * (b / 16) + b % 16 = b
  omega

/-- `hexToBytes` undoes `bytesToHex` on byte sequences. -/
theorem hexToBytes_bytesToHex (d : List Nat) (hb : IsBytes d) :
    hexToBytes (bytesToHex d) = d := by
  induction d with
  | nil => rfl
  | cons b d ih =>
    rw [bytesToHex_cons]
    show hexPairVal (hexDigitChar (b / 16)) (hexDigitChar (b % 16))
        :: hexToBytes (bytesToHex d) = b :: d
    rw [hexPairVal_encode b (hb b (by simp)), ih (fun x hx => hb x (by simp [hx]))]

/-! ## SHA-256 digest shape -/

namespace SHA256Impl

theorem exists8 (s : List Nat) (h : s.length = 8) :
    ∃ b0 b1 b2 b3 b4 b5 b6 b7, s = [b0, b1, b2, b3, b4, b5, b6, b7] := by
  obtain ⟨b0, s, rfl⟩ := List.exists_of_length_succ s h
  simp only [List.length_cons, Nat.succ.injEq] at h
  obtain ⟨b1, s, rfl⟩ := List.exists_of_length_succ s h
  simp only [List.length_cons, Nat.succ.injEq] at h
  obtain ⟨b2, s, rfl⟩ := List.exists_of_length_succ s h
  simp only [List.length_cons, Nat.succ.injEq] at h
  obtain ⟨b3, s, rfl⟩ := List.exists_of_length_succ s h
  simp only [List.length_cons, Nat.succ.injEq] at h
  obtain ⟨b4, s, rfl⟩ := List.exists_of_length_succ s h
  simp only [List.length_cons, Nat.succ.injEq] at h
  obtain ⟨b5, s, rfl⟩ := List.exists_of_length_succ s h
  simp only [List.length_cons, Nat.succ.injEq] at h
  obtain ⟨b6, s, rfl⟩ := List.exists_of_length_succ s h
  simp only [List.length_cons, Nat.succ.injEq] at h
  obtain ⟨b7, s, rfl⟩ := List.exists_of_length_succ s h
  simp only [List.length_cons, Nat.succ.injEq] at h
  have : s = [] := List.length_eq_zero.mp h
  subst this
  exact ⟨b0, b1, b2, b3, b4, b5, b6, b7, rfl⟩

theorem rounds_length (w : List Nat) :
    ∀ (fuel i : Nat) (st : List Nat), st.length = 8 → (rounds w st i fuel).length = 8
  | 0, _, _, h => h
  | fuel + 1, i, st, h => by
    obtain ⟨b0, b1, b2, b3, b4, b5, b6, b7, rfl⟩ := exists8 st h
    exact rounds_length w fuel (i + 1) _ rfl

theorem processBlocksF_length :
    ∀ (fuel : Nat) (h msg : List Nat), h.length = 8 → (processBlocksF h msg fuel).length = 8
  | 0, _, _, hh => hh
  | fuel + 1, h, msg, hh => by
    by_cases hm : msg = []
    · rw [processBlocksF, if_pos hm]
      exact hh
    · rw [processBlocksF, if_neg hm]
      apply processBlocksF_length fuel
      rw [List.length_zipWith, hh, rounds_length _ _ _ _ hh]
      omega

theorem processBlocks_length (msg h : List Nat) (hh : h.length = 8) :
    (processBlocks h msg).length = 8 :=
  processBlocksF_length msg.length h msg hh

theorem flatMap4_length (l : List Nat) (f0 f1 f2 f3 : Nat → Nat) :
    (l.flatMap (fun h => [f0 h, f1 h, f2 h, f3 h])).length = 4 * l.length := by
  induction l with
  | nil => rfl
  | cons x l ih =>
    rw [List.flatMap_cons, List.length_append, ih]
    simp only [List.length_cons, List.length_nil]
    omega

/-- The digest is exactly 32 bytes. -/
theorem hash_length (msg : List Nat) : (hash msg).length = 32 := by
  show ((processBlocks initH (padMsg msg)).flatMap (fun h =>
    [(h >>> 24) &&& 255, (h >>> 16) &&& 255, (h >>> 8) &&& 255, h &&& 255])).length = 32
  rw [flatMap4_length, processBlocks_length _ _ (by rfl)]

/-- Every digest entry is a byte. -/
theorem hash_bytes (msg : List Nat) : IsBytes (hash msg) := by
  intro b hb
  obtain ⟨x, _, hxm⟩ := List.mem_flatMap.mp hb
  have hand : ∀ y : Nat, y &&& 255 < 256 :=
    fun y => Nat.lt_of_le_of_lt Nat.and_le_right (by omega)
  simp only [List.mem_cons, List.not_mem_nil, or_false] at hxm
  rcases hxm with rfl | rfl | rfl | rfl <;> exact hand _

end SHA256Impl

/-! ## CBC chaining lemmas -/

namespace AESCipher

open AES256Impl

/-- Any fuel at least the input length gives the same CBC-encryption
result. -/
theorem cbcEncBlocksF_fuel (rk : List Nat) :
    ∀ (fuel fuel2 : Nat) (prev pt : List Nat), pt.length ≤ fuel → pt.length ≤ fuel2 →
      cbcEncBlocksF rk prev pt fuel = cbcEncBlocksF rk prev pt fuel2
  | 0, fuel2, prev, pt, h, _ => by
    have hp : pt = [] := List.length_eq_zero.mp (by omega)
    subst hp
    cases fuel2 with
    | zero => rfl
    | succ f => simp [cbcEncBlocksF]
  | fuel + 1, fuel2, prev, pt, h, h2 => by
    by_cases hp : pt = []
    · subst hp
      cases fuel2 with
      | zero => simp [cbcEncBlocksF]
      | succ f => simp [cbcEncBlocksF]
    · have hlen : pt.length ≠ 0 := fun hz => hp (List.length_eq_zero.mp hz)
      obtain ⟨f2, rfl⟩ : ∃ f2, fuel2 = f2 + 1 := ⟨fuel2 - 1, by omega⟩
      conv_lhs => rw [cbcEncBlocksF]
      conv_rhs => rw [cbcEncBlocksF]
      rw [if_neg hp, if_neg hp]
      have ht := cbcEncBlocksF_fuel rk fuel f2
        (encryptBlock rk (List.zipWith Nat.xor (pt.take 16) prev)) (pt.drop 16)
        (by rw [List.length_drop]; omega) (by rw [List.length_drop]; omega)
      show encryptBlock rk (List.zipWith Nat.xor (pt.take 16) prev)
          ++ cbcEncBlocksF rk (encryptBlock rk (List.zipWith Nat.xor (pt.take 16) prev))
              (pt.drop 16) fuel
        = encryptBlock rk (List.zipWith Nat.xor (pt.take 16) prev)
          ++ cbcEncBlocksF rk (encryptBlock rk (List.zipWith Nat.xor (pt.take 16) prev))
              (pt.drop 16) f2
      rw [ht]

theorem cbcEncBlocks_nil (rk prev : List Nat) : cbcEncBlocks rk prev [] = [] := rfl

theorem cbcEncBlocks_cons (rk prev pt : List Nat) (h : pt ≠ []) :
    cbcEncBlocks rk prev pt
      = encryptBlock rk (List.zipWith Nat.xor (pt.take 16) prev)
        ++ cbcEncBlocks rk (encryptBlock rk (List.zipWith Nat.xor (pt.take 16) prev))
            (pt.drop 16) := by
  have hlen : pt.length ≠ 0 := fun hz => h (List.length_eq_zero.mp hz)
  show cbcEncBlocksF rk prev pt pt.length = _
  rw [show pt.length = (pt.length - 1) + 1 from by omega]
  rw [cbcEncBlocksF, if_neg h]
  show encryptBlock rk (List.zipWith Nat.xor (pt.take 16) prev)
      ++ cbcEncBlocksF rk (encryptBlock rk (List.zipWith Nat.xor (pt.take 16) prev))
          (pt.drop 16) (pt.length - 1)
    = encryptBlock rk (List.zipWith Nat.xor (pt.take 16) prev)
      ++ cbcEncBlocksF rk (encryptBlock rk (List.zipWith Nat.xor (pt.take 16) prev))
          (pt.drop 16) (pt.drop 16).length
  rw [cbcEncBlocksF_fuel rk (pt.length - 1) (pt.drop 16).length _ (pt.drop 16)
    (by rw [List.length_drop]; omega) (by omega)]

/-- Any fuel at least the input length gives the same CBC-decryption
result. -/
theorem cbcDecBlocksF_fuel (rk : List Nat) :
    ∀ (fuel fuel2 : Nat) (prev ct : List Nat), ct.length ≤ fuel → ct.length ≤ fuel2 →
      cbcDecBlocksF rk prev ct fuel = cbcDecBlocksF rk prev ct fuel2
  | 0, fuel2, prev, ct, h, _ => by
    have hp : ct = [] := List.length_eq_zero.mp (by omega)
    subst hp
    cases fuel2 with
    | zero => rfl
    | succ f => simp [cbcDecBlocksF]
  | fuel + 1, fuel2, prev, ct, h, h2 => by
    by_cases hp : ct = []
    · subst hp
      cases fuel2 with
      | zero => simp [cbcDecBlocksF]
      | succ f => simp [cbcDecBlocksF]
    · have hlen : ct.length ≠ 0 := fun hz => hp (List.length_eq_zero.mp hz)
      obtain ⟨f2, rfl⟩ : ∃ f2, fuel2 = f2 + 1 := ⟨fuel2 - 1, by omega⟩
      conv_lhs => rw [cbcDecBlocksF]
      conv_rhs => rw [cbcDecBlocksF]
      rw [if_neg hp, if_neg hp]
      have ht := cbcDecBlocksF_fuel rk fuel f2 (ct.take 16) (ct.drop 16)
        (by rw [List.length_drop]; omega) (by rw [List.length_drop]; omega)
      rw [ht]

theorem cbcDecBlocks_nil (rk prev : List Nat) : cbcDecBlocks rk prev [] = [] := rfl

theorem cbcDecBlocks_cons (rk prev ct : List Nat) (h : ct ≠ []) :
    cbcDecBlocks rk prev ct
      = List.zipWith Nat.xor (decryptBlock rk (ct.take 16)) prev
        ++ cbcDecBlocks rk (ct.take 16) (ct.drop 16) := by
  have hlen : ct.length ≠ 0 := fun hz => h (List.length_eq_zero.mp hz)
  show cbcDecBlocksF rk prev ct ct.length = _
  rw [show ct.length = (ct.length - 1) + 1 from by omega]
  rw [cbcDecBlocksF, if_neg h]
  show _ ++ cbcDecBlocksF rk (ct.take 16) (ct.drop 16) (ct.length - 1)
      = _ ++ cbcDecBlocksF rk (ct.take 16) (ct.drop 16) (ct.drop 16).length
  rw [cbcDecBlocksF_fuel rk (ct.length - 1) (ct.drop 16).length (ct.take 16) (ct.drop 16)
    (by rw [List.length_drop]; omega) (by omega)]

theorem take16_valid (pt : List Nat) (h16 : 16 ≤ pt.length) (hb : IsBytes pt) :
    (pt.take 16).length = 16 ∧ IsBytes (pt.take 16) := by
  constructor
  · rw [List.length_take]
    omega
  · exact isBytes_take _ hb

theorem cbcEncBlocks_valid (rk : List Nat) (hrk : rk.length = 240) (hrkb : IsBytes rk) :
    ∀ pt prev, 16 ∣ pt.length → IsBytes pt → prev.length = 16 → IsBytes prev →
      (cbcEncBlocks rk prev pt).length = pt.length ∧
        IsBytes (cbcEncBlocks rk prev pt) := by
  intro pt prev hdvd hptb hpl hpb
  by_cases hp : pt = []
  · subst hp
    rw [cbcEncBlocks_nil]
    exact ⟨rfl, by intro b hb; simp at hb⟩
  · have h16 : 16 ≤ pt.length := by
      rcases hdvd with ⟨k, hk⟩
      have : pt.length ≠ 0 := fun hz => hp (List.length_eq_zero.mp hz)
      omega
    have hx : (List.zipWith Nat.xor (pt.take 16) prev).length = 16 := by
      rw [List.length_zipWith, (take16_valid pt h16 hptb).1, hpl]
      omega
    have hxb : IsBytes (List.zipWith Nat.xor (pt.take 16) prev) :=
      isBytes_zipWith_xor (isBytes_take _ hptb) hpb
    have hblk := encryptBlock_valid rk hrk hrkb _ hx hxb
    rw [cbcEncBlocks_cons rk prev pt hp]
    have hrec := cbcEncBlocks_valid rk hrk hrkb (pt.drop 16) _
      (by rw [List.length_drop]; exact (Nat.dvd_sub' hdvd (by norm_num)))
      (isBytes_drop _ hptb) hblk.1 hblk.2
    constructor
    · rw [List.length_append, hblk.1, hrec.1, List.length_drop]
      omega
    · rw [isBytes_append]
      exact ⟨hblk.2, hrec.2⟩
termination_by pt => pt.length
decreasing_by
  simp only [List.length_drop]
  omega

theorem cbcDecBlocks_valid (rk : List Nat) (hrk : rk.length = 240) (hrkb : IsBytes rk) :
    ∀ ct prev, 16 ∣ ct.length → IsBytes ct → prev.length = 16 → IsBytes prev →
      (cbcDecBlocks rk prev ct).length = ct.length ∧
        IsBytes (cbcDecBlocks rk prev ct) := by
  intro ct prev hdvd hctb hpl hpb
  by_cases hc : ct = []
  · subst hc
    rw [cbcDecBlocks_nil]
    exact ⟨rfl, by intro b hb; simp at hb⟩
  · have h16 : 16 ≤ ct.length := by
      rcases hdvd with ⟨k, hk⟩
      have : ct.length ≠ 0 := fun hz => hc (List.length_eq_zero.mp hz)
      omega
    have htk := take16_valid ct h16 hctb
    have hblk := decryptBlock_valid rk hrk hrkb _ htk.1 htk.2
    rw [cbcDecBlocks_cons rk prev ct hc]
    have hrec := cbcDecBlocks_valid rk hrk hrkb (ct.drop 16) _
      (by rw [List.length_drop]; exact (Nat.dvd_sub' hdvd (by norm_num)))
      (isBytes_drop _ hctb) htk.1 htk.2
    constructor
    · rw [List.length_append, hrec.1, List.length_zipWith, hblk.1, hpl, List.length_drop]
      omega
    · rw [isBytes_append]
      exact ⟨isBytes_zipWith_xor hblk.2 hpb, hrec.2⟩
termination_by ct => ct.length
decreasing_by
  simp only [List.length_drop]
  omega

/-- CBC decryption inverts CBC encryption block-by-block. -/
theorem cbcDec_cbcEnc (rk : List Nat) (hrk : rk.length = 240) (hrkb : IsBytes rk) :
    ∀ pt prev, 16 ∣ pt.length → IsBytes pt → prev.length = 16 → IsBytes prev →
      cbcDecBlocks rk prev (cbcEncBlocks rk prev pt) = pt := by
  intro pt prev hdvd hptb hpl hpb
  by_cases hp : pt = []
  · subst hp
    rw [cbcEncBlocks_nil, cbcDecBlocks_nil]
  · have h16 : 16 ≤ pt.length := by
      rcases hdvd with ⟨k, hk⟩
      have : pt.length ≠ 0 := fun hz => hp (List.length_eq_zero.mp hz)
      omega
    have htk := take16_valid pt h16 hptb
    have hx : (List.zipWith Nat.xor (pt.take 16) prev).length = 16 := by
      rw [List.length_zipWith, htk.1, hpl]
      omega
    have hxb : IsBytes (List.zipWith Nat.xor (pt.take 16) prev) :=
      isBytes_zipWith_xor htk.2 hpb
    have hblk := encryptBlock_valid rk hrk hrkb _ hx hxb
    rw [cbcEncBlocks_cons rk prev pt hp]
    have hne : encryptBlock rk (List.zipWith Nat.xor (pt.take 16) prev)
        ++ cbcEncBlocks rk (encryptBlock rk (List.zipWith Nat.xor (pt.take 16) prev))
          (pt.drop 16) ≠ [] := by
      intro hcontra
      have := congrArg List.length hcontra
      rw [List.length_append, hblk.1] at this
      simp at this
    rw [cbcDecBlocks_cons rk prev _ hne]
    rw [List.take_left' hblk.1, List.drop_left' hblk.1]
    rw [decryptBlock_encryptBlock rk hrk hrkb _ hx hxb]
    rw [zipWith_xor_cancel _ _ (by rw [htk.1, hpl])]
    rw [cbcDec_cbcEnc rk hrk hrkb (pt.drop 16) _
      (by rw [List.length_drop]; exact (Nat.dvd_sub' hdvd (by norm_num)))
      (isBytes_drop _ hptb) hblk.1 hblk.2]
    exact List.take_append_drop 16 pt
termination_by pt => pt.length
decreasing_by
  simp only [List.length_drop]
  omega

/-- With the same chaining value, equal CBC decryptions force equal
ciphertext block streams. -/
theorem cbcDecBlocks_inj_ct (rk : List Nat) (hrk : rk.length = 240)
    (hrkb : IsBytes rk) :
    ∀ bs bs' prev, bs.length = bs'.length → 16 ∣ bs.length →
      IsBytes bs → IsBytes bs' → prev.length = 16 →
      cbcDecBlocks rk prev bs = cbcDecBlocks rk prev bs' → bs = bs' := by
  intro bs bs' prev hlen hdvd hb hb' hpl heq
  by_cases hp : bs = []
  · subst hp
    have : bs'.length = 0 := by rw [← hlen]; rfl
    exact (List.length_eq_zero.mp this).symm
  · have hp' : bs' ≠ [] := by
      intro hz
      subst hz
      simp at hlen
      exact hp hlen
    have h16 : 16 ≤ bs.length := by
      rcases hdvd with ⟨k, hk⟩
      have : bs.length ≠ 0 := fun hz => hp (List.length_eq_zero.mp hz)
      omega
    have h16' : 16 ≤ bs'.length := by omega
    have htk := take16_valid bs h16 hb
    have htk' := take16_valid bs' h16' hb'
    have hD := decryptBlock_valid rk hrk hrkb _ htk.1 htk.2
    have hD' := decryptBlock_valid rk hrk hrkb _ htk'.1 htk'.2
    rw [cbcDecBlocks_cons rk prev bs hp, cbcDecBlocks_cons rk prev bs' hp'] at heq
    have hheadlen : (List.zipWith Nat.xor (decryptBlock rk (bs.take 16)) prev).length
        = (List.zipWith Nat.xor (decryptBlock rk (bs'.take 16)) prev).length := by
      rw [List.length_zipWith, List.length_zipWith, hD.1, hD'.1]
    obtain ⟨hhead, htail⟩ := List.append_inj heq hheadlen
    have hDeq : decryptBlock rk (bs.take 16) = decryptBlock rk (bs'.take 16) :=
      zipWith_xor_right_cancel _ _ prev (by rw [hD.1, hD'.1])
        (by rw [hD.1, hpl]) hhead
    have hblkeq : bs.take 16 = bs'.take 16 := by
      have e1 := encryptBlock_decryptBlock rk hrk hrkb _ htk.1 htk.2
      have e2 := encryptBlock_decryptBlock rk hrk hrkb _ htk'.1 htk'.2
      rw [← e1, ← e2, hDeq]
    have hdropeq : bs.drop 16 = bs'.drop 16 := by
      apply cbcDecBlocks_inj_ct rk hrk hrkb (bs.drop 16) (bs'.drop 16) (bs.take 16)
      · rw [List.length_drop, List.length_drop, hlen]
      · rw [List.length_drop]
        exact Nat.dvd_sub' hdvd (by norm_num)
      · exact isBytes_drop _ hb
      · exact isBytes_drop _ hb'
      · exact htk.1
      · rw [htail, hblkeq]
    calc bs = bs.take 16 ++ bs.drop 16 := (List.take_append_drop 16 bs).symm
      _ = bs'.take 16 ++ bs'.drop 16 := by rw [hblkeq, hdropeq]
      _ = bs' := List.take_append_drop 16 bs'
termination_by bs => bs.length
decreasing_by
  simp only [List.length_drop]
  omega

/-- With the same nonempty block stream, equal CBC decryptions force equal
chaining values. -/
theorem cbcDecBlocks_inj_prev (rk : List Nat) (hrk : rk.length = 240)
    (hrkb : IsBytes rk) (bs prev prev' : List Nat) (hne : bs ≠ [])
    (hdvd : 16 ∣ bs.length) (hb : IsBytes bs)
    (hpl : prev.length = 16) (hpl' : prev'.length = 16)
    (heq : cbcDecBlocks rk prev bs = cbcDecBlocks rk prev' bs) : prev = prev' := by
  have h16 : 16 ≤ bs.length := by
    rcases hdvd with ⟨k, hk⟩
    have : bs.length ≠ 0 := fun hz => hne (List.length_eq_zero.mp hz)
    omega
  have htk := take16_valid bs h16 hb
  have hD := decryptBlock_valid rk hrk hrkb _ htk.1 htk.2
  rw [cbcDecBlocks_cons rk prev bs hne, cbcDecBlocks_cons rk prev' bs hne] at heq
  have hheadlen : (List.zipWith Nat.xor (decryptBlock rk (bs.take 16)) prev).length
      = (List.zipWith Nat.xor (decryptBlock rk (bs.take 16)) prev').length := by
    rw [List.length_zipWith, List.length_zipWith, hpl, hpl']
  obtain ⟨hhead, _⟩ := List.append_inj heq hheadlen
  exact zipWith_xor_left_cancel _ prev prev' (by rw [hpl, hpl'])
    (by rw [hpl, hD.1]) hhead

end AESCipher

/-! ## Small `getD` helpers -/

theorem getD_append_left {l1 l2 : List Nat} {n : Nat} (h : n < l1.length) :
    (l1 ++ l2).getD n 0 = l1.getD n 0 := by
  rw [List.getD_eq_getElem?_getD, List.getD_eq_getElem?_getD, List.getElem?_append_left h]

theorem getD_append_right {l1 l2 : List Nat} {n : Nat} (h : l1.length ≤ n) :
    (l1 ++ l2).getD n 0 = l2.getD (n - l1.length) 0 := by
  rw [List.getD_eq_getElem?_getD, List.getD_eq_getElem?_getD, List.getElem?_append_right h]

theorem getD_set_self {l : List Nat} {k v : Nat} (h : k < l.length) :
    (l.set k v).getD k 0 = v := by
  rw [List.getD_eq_getElem?_getD, List.getElem?_set_self h]
  rfl

theorem isBytes_set {l : List Nat} (k v : Nat) (hb : IsBytes l) (hv : v < 256) :
    IsBytes (l.set k v) := by
  intro b hbm
  rcases List.mem_or_eq_of_mem_set hbm with h | h
  · exact hb b h
  · omega

/-! ## The claims -/

open AES256Impl AESCipher

/-- C3: the SHA-256 implementation matches the FIPS-180-4 test vectors:
the empty message hashes to e3b0c442…b855 and "abc" (bytes 61 62 63)
hashes to ba7816bf…15ad. -/
theorem claim_C3_sha256_vectors :
    SHA256Impl.hash [] =
      [0xe3,0xb0,0xc4,0x42,0x98,0xfc,0x1c,0x14,0x9a,0xfb,0xf4,0xc8,0x99,0x6f,0xb9,0x24,
       0x27,0xae,0x41,0xe4,0x64,0x9b,0x93,0x4c,0xa4,0x95,0x99,0x1b,0x78,0x52,0xb8,0x55] ∧
    SHA256Impl.hash [0x61,0x62,0x63] =
      [0xba,0x78,0x16,0xbf,0x8f,0x01,0xcf,0xea,0x41,0x41,0x40,0xde,0x5d,0xae,0x22,0x23,
       0xb0,0x03,0x61,0xa3,0x96,0x17,0x7a,0x9c,0xb4,0x10,0xff,0x61,0xf2,0x00,0x15,0xad] := by
  constructor <;> decide

/-- C4 (counterexample): with the schedule expanded from the FIPS-197
Appendix C.3 256-bit test key 000102…1f, `encryptBlock` of the all-zero
block does NOT produce the ciphertext block published in FIPS-197
(8ea2b7ca516745bfeafc49904b496089, which the standard publishes for the
plaintext block 00112233445566778899aabbccddeeff, not for the zero block). -/
theorem claim_C4_counterexample :
    encryptBlock (keyExpansion (List.range 32)) (List.replicate 16 0)
      ≠ [0x8e,0xa2,0xb7,0xca,0x51,0x67,0x45,0xbf,
         0xea,0xfc,0x49,0x90,0x4b,0x49,0x60,0x89] := by
  decide

/-- C4 (amended): with the schedule expanded from the FIPS-197 Appendix C.3
256-bit test key 000102…1f, `encryptBlock` of the standard's example
plaintext block 00112233445566778899aabbccddeeff produces exactly the
published ciphertext block 8ea2b7ca516745bfeafc49904b496089, and
`decryptBlock` of that ciphertext block returns the plaintext block. -/
theorem claim_C4_amended :
    encryptBlock (keyExpansion (List.range 32))
        [0x00,0x11,0x22,0x33,0x44,0x55,0x66,0x77,0x88,0x99,0xaa,0xbb,0xcc,0xdd,0xee,0xff]
      = [0x8e,0xa2,0xb7,0xca,0x51,0x67,0x45,0xbf,0xea,0xfc,0x49,0x90,0x4b,0x49,0x60,0x89] ∧
    decryptBlock (keyExpansion (List.range 32))
        [0x8e,0xa2,0xb7,0xca,0x51,0x67,0x45,0xbf,0xea,0xfc,0x49,0x90,0x4b,0x49,0x60,0x89]
      = [0x00,0x11,0x22,0x33,0x44,0x55,0x66,0x77,0x88,0x99,0xaa,0xbb,0xcc,0xdd,0xee,0xff] := by
  constructor <;> decide

/-- C6: `decrypt` rejects every input whose length is below 32 or whose
length minus 16 is not a multiple of 16, returning the failed result
before touching any block. -/
theorem claim_C6_length_rejection (rk ct : List Nat)
    (h : ct.length < 32 ∨ (ct.length - 16) % 16 ≠ 0) :
    decrypt rk ct = none := by
  unfold decrypt
  rw [if_pos h]

/-- Witness for C6 at the concrete length-31 input. -/
theorem claim_C6_witness :
    ((List.replicate 31 0 : List Nat).length < 32 ∨
      ((List.replicate 31 0 : List Nat).length - 16) % 16 ≠ 0) ∧
    decrypt [] (List.replicate 31 0) = none :=
  ⟨by decide, claim_C6_length_rejection [] (List.replicate 31 0) (by decide)⟩

/-- C7: `pkcs7Pad` appends exactly `16 - |data| % 16` bytes, a count always
in `[1,16]`, each equal to that count, and `pkcs7Unpad` undoes it. -/
theorem claim_C7_padding_law (data : List Nat) :
    pkcs7Pad data
        = data ++ List.replicate (16 - data.length % 16) (16 - data.length % 16) ∧
    1 ≤ 16 - data.length % 16 ∧ 16 - data.length % 16 ≤ 16 ∧
    pkcs7Unpad (pkcs7Pad data) = some data :=
  ⟨rfl, (padLen_bounds data.length).1, (padLen_bounds data.length).2,
   pkcs7Unpad_pkcs7Pad data⟩

/-- C8: for a 32-byte key the expansion yields 240 bytes (60 words), its
first 32 bytes are the key, and each word `i ∈ [8,60)` is the word eight
places back XORed with the spec's transform of the previous word
(rotate + S-box + rcon when `i % 8 = 0`, S-box alone when `i % 8 = 4`,
identity otherwise). -/
theorem claim_C8_key_expansion (key : List Nat) (hk : key.length = 32) :
    (keyExpansion key).length = 240 ∧
    (keyExpansion key).take 32 = key ∧
    (∀ i, 8 ≤ i → i < 60 →
      rkWord (keyExpansion key) i
        = List.zipWith Nat.xor (rkWord (keyExpansion key) (i - 8))
            (specKsTransform (rkWord (keyExpansion key) (i - 1)) i)) :=
  ⟨keyExpansion_length key hk, keyExpansion_take key hk, keyExpansion_words key hk⟩

/-- Witness for C8 at the all-zero 32-byte key. -/
theorem claim_C8_witness :
    (List.replicate 32 0 : List Nat).length = 32 ∧
    (keyExpansion (List.replicate 32 0)).take 32 = List.replicate 32 0 :=
  ⟨by decide, (claim_C8_key_expansion (List.replicate 32 0) (by decide)).2.1⟩

/-- C10: once the schedule is expanded from a 32-byte key, `encryptBlock`
and `decryptBlock` are mutual inverses on 16-byte blocks. -/
theorem claim_C10_block_inverses (key blk : List Nat)
    (hk : key.length = 32) (hkb : IsBytes key)
    (hb : blk.length = 16) (hbb : IsBytes blk) :
    decryptBlock (keyExpansion key) (encryptBlock (keyExpansion key) blk) = blk ∧
    encryptBlock (keyExpansion key) (decryptBlock (keyExpansion key) blk) = blk :=
  ⟨decryptBlock_encryptBlock (keyExpansion key) (keyExpansion_length key hk)
      (keyExpansion_bytes key hk hkb) blk hb hbb,
   encryptBlock_decryptBlock (keyExpansion key) (keyExpansion_length key hk)
      (keyExpansion_bytes key hk hkb) blk hb hbb⟩

/-- Witness for C10 at the all-zero key and all-zero block. -/
theorem claim_C10_witness :
    (List.replicate 32 0 : List Nat).length = 32 ∧
    (List.replicate 16 0 : List Nat).length = 16 ∧
    (decryptBlock (keyExpansion (List.replicate 32 0))
        (encryptBlock (keyExpansion (List.replicate 32 0)) (List.replicate 16 0))
      = List.replicate 16 0 ∧
     encryptBlock (keyExpansion (List.replicate 32 0))
        (decryptBlock (keyExpansion (List.replicate 32 0)) (List.replicate 16 0))
      = List.replicate 16 0) :=
  ⟨by decide, by decide,
   claim_C10_block_inverses (List.replicate 32 0) (List.replicate 16 0)
     (by decide) (by decide) (by decide) (by decide)⟩

/-- C1: for every password, every plaintext byte sequence (including the
empty one) and every successful draw of a 16-byte IV, decrypting the result
of encrypting under the key derived from the password returns exactly the
plaintext. -/
theorem claim_C1_roundtrip (password pt iv : List Nat) (hptb : IsBytes pt)
    (hiv : iv.length = 16) (hivb : IsBytes iv) :
    ∀ ct, encrypt (scheduleOf password) (some iv) pt = some ct →
      decrypt (scheduleOf password) ct = some pt := by
  intro ct hct
  have hkl : (deriveKey password).length = 32 := SHA256Impl.hash_length password
  have hkb : IsBytes (deriveKey password) := SHA256Impl.hash_bytes password
  have hrk : (scheduleOf password).length = 240 := keyExpansion_length _ hkl
  have hrkb : IsBytes (scheduleOf password) := keyExpansion_bytes _ hkl hkb
  have hct2 : iv ++ cbcEncBlocks (scheduleOf password) iv (pkcs7Pad pt) = ct := by
    injection hct
  subst hct2
  have hpadb : IsBytes (pkcs7Pad pt) := pkcs7Pad_bytes pt hptb
  have hpaddvd : 16 ∣ (pkcs7Pad pt).length :=
    Nat.dvd_of_mod_eq_zero (pkcs7Pad_length_mod pt)
  have hpadlen : 16 ≤ (pkcs7Pad pt).length := by
    rw [pkcs7Pad_length]
    omega
  have hB := cbcEncBlocks_valid (scheduleOf password) hrk hrkb (pkcs7Pad pt) iv
    hpaddvd hpadb hiv hivb
  have hctlen : (iv ++ cbcEncBlocks (scheduleOf password) iv (pkcs7Pad pt)).length
      = 16 + (pkcs7Pad pt).length := by
    rw [List.length_append, hiv, hB.1]
  unfold decrypt
  rw [if_neg (by
    push_neg
    constructor
    · rw [hctlen]; omega
    · rw [hctlen]
      rcases hpaddvd with ⟨k, hk⟩
      omega)]
  rw [List.take_left' hiv, List.drop_left' hiv]
  rw [cbcDec_cbcEnc (scheduleOf password) hrk hrkb (pkcs7Pad pt) iv
    hpaddvd hpadb hiv hivb]
  exact pkcs7Unpad_pkcs7Pad pt

/-- Witness for C1: the empty password, the empty plaintext, and the
all-zero IV round-trip. -/
theorem claim_C1_witness :
    decrypt (scheduleOf []) (List.replicate 16 0
      ++ cbcEncBlocks (scheduleOf []) (List.replicate 16 0) (pkcs7Pad [])) = some [] :=
  claim_C1_roundtrip [] [] (List.replicate 16 0) (by decide) (by decide) (by decide)
    _ rfl

/-- C2 (counterexample): decrypting the valid 32-byte encryption of the
EMPTY plaintext under the all-zero IV and the all-zero key succeeds — the
padding check passes and the call takes the success path — yet returns the
empty byte sequence, so a successful decrypt CAN return the empty-result
sentinel, contrary to the claim. -/
theorem claim_C2_counterexample :
    decrypt (keyExpansion (List.replicate 32 0))
      (List.replicate 16 0 ++ cbcEncBlocks (keyExpansion (List.replicate 32 0))
        (List.replicate 16 0) (pkcs7Pad [])) = some [] := by
  decide

/-- C2 (amended): every failure (random-IV unavailability, invalid
ciphertext length, invalid padding) is signalled by the failed result; no
successful encrypt returns the empty sequence; and a successful decrypt of
a ciphertext LONGER than 32 bytes never returns the empty sequence (the
32-byte ciphertext of an empty plaintext is the one ambiguous case). -/
theorem claim_C2_amended_sentinel (rk pt iv ct : List Nat)
    (hrk : rk.length = 240) (hrkb : IsBytes rk) (hiv : iv.length = 16)
    (hctb : IsBytes ct) :
    encrypt rk none pt = none
    ∧ (∀ r, encrypt rk (some iv) pt = some r → r ≠ [])
    ∧ (ct.length < 32 ∨ (ct.length - 16) % 16 ≠ 0 → decrypt rk ct = none)
    ∧ (pkcs7Unpad (cbcDecBlocks rk (ct.take 16) (ct.drop 16)) = none →
        decrypt rk ct = none)
    ∧ (32 < ct.length → ∀ r, decrypt rk ct = some r → r ≠ []) := by
  refine ⟨rfl, ?_, ?_, ?_, ?_⟩
  · intro r hr hrnil
    have hiveq : iv ++ cbcEncBlocks rk iv (pkcs7Pad pt) = r := by injection hr
    rw [hrnil] at hiveq
    have h2 : iv = [] := (List.append_eq_nil.mp hiveq).1
    rw [h2] at hiv
    simp at hiv
  · intro h
    unfold decrypt
    rw [if_pos h]
  · intro hun
    unfold decrypt
    by_cases hc : ct.length < 32 ∨ (ct.length - 16) % 16 ≠ 0
    · rw [if_pos hc]
    · rw [if_neg hc, hun]
  · intro hgt r hr hrnil
    unfold decrypt at hr
    by_cases hc : ct.length < 32 ∨ (ct.length - 16) % 16 ≠ 0
    · rw [if_pos hc] at hr
      simp at hr
    · rw [if_neg hc] at hr
      push_neg at hc
      obtain ⟨hc1, hc2⟩ := hc
      have hdvd : 16 ∣ ct.length - 16 := Nat.dvd_of_mod_eq_zero hc2
      have htk : (ct.take 16).length = 16 := by
        rw [List.length_take]
        omega
      have hQ := cbcDecBlocks_valid rk hrk hrkb (ct.drop 16) (ct.take 16)
        (by rw [List.length_drop]; exact hdvd) (isBytes_drop _ hctb) htk
        (isBytes_take _ hctb)
      obtain ⟨p, hp1, hp16, hple, hmod, hrlen, hq⟩ := pkcs7Unpad_some _ _ hr
      have hpos : 0 < r.length := by
        rw [hrlen, hQ.1, List.length_drop]
        omega
      rw [hrnil] at hpos
      simp at hpos

/-- Witness for the amended C2: a 31-byte input is rejected with the failed
result under the all-zero key schedule. -/
theorem claim_C2_amended_witness :
    decrypt (keyExpansion (List.replicate 32 0)) (List.replicate 31 0) = none :=
  (claim_C2_amended_sentinel (keyExpansion (List.replicate 32 0)) []
    (List.replicate 16 0) (List.replicate 31 0)
    (by decide) (by decide) (by decide) (by decide)).2.2.1 (by decide)

/-- C5: changing any single byte of a valid ciphertext to a different byte
value makes `decrypt` under the same key either fail or return a plaintext
different from the original — it never succeeds with the original
plaintext. -/
theorem claim_C5_tamper (password pt iv : List Nat) (hptb : IsBytes pt)
    (hiv : iv.length = 16) (hivb : IsBytes iv) (k v : Nat) (hv : v < 256) :
    ∀ ct, encrypt (scheduleOf password) (some iv) pt = some ct →
      k < ct.length → v ≠ ct.getD k 0 →
      decrypt (scheduleOf password) (ct.set k v) ≠ some pt := by
  intro ct hct hk hvne hcontra
  have hkl : (deriveKey password).length = 32 := SHA256Impl.hash_length password
  have hkb : IsBytes (deriveKey password) := SHA256Impl.hash_bytes password
  have hrk : (scheduleOf password).length = 240 := keyExpansion_length _ hkl
  have hrkb : IsBytes (scheduleOf password) := keyExpansion_bytes _ hkl hkb
  have hct2 : iv ++ cbcEncBlocks (scheduleOf password) iv (pkcs7Pad pt) = ct := by
    injection hct
  subst hct2
  have hpadb : IsBytes (pkcs7Pad pt) := pkcs7Pad_bytes pt hptb
  have hpaddvd : 16 ∣ (pkcs7Pad pt).length :=
    Nat.dvd_of_mod_eq_zero (pkcs7Pad_length_mod pt)
  have hpadlen : 16 ≤ (pkcs7Pad pt).length := by
    rw [pkcs7Pad_length]
    omega
  have hB := cbcEncBlocks_valid (scheduleOf password) hrk hrkb (pkcs7Pad pt) iv
    hpaddvd hpadb hiv hivb
  have hBdvd : 16 ∣ (cbcEncBlocks (scheduleOf password) iv (pkcs7Pad pt)).length := by
    rw [hB.1]
    exact hpaddvd
  have hBlen16 : 16 ≤ (cbcEncBlocks (scheduleOf password) iv (pkcs7Pad pt)).length := by
    rw [hB.1]
    exact hpadlen
  have hBne : cbcEncBlocks (scheduleOf password) iv (pkcs7Pad pt) ≠ [] := by
    intro hz
    rw [hz] at hBlen16
    simp at hBlen16
  have horig : cbcDecBlocks (scheduleOf password) iv
      (cbcEncBlocks (scheduleOf password) iv (pkcs7Pad pt)) = pkcs7Pad pt :=
    cbcDec_cbcEnc (scheduleOf password) hrk hrkb (pkcs7Pad pt) iv
      hpaddvd hpadb hiv hivb
  rcases Nat.lt_or_ge k 16 with hk16 | hk16
  · -- the changed byte is inside the IV
    have hset : (iv ++ cbcEncBlocks (scheduleOf password) iv (pkcs7Pad pt)).set k v
        = iv.set k v ++ cbcEncBlocks (scheduleOf password) iv (pkcs7Pad pt) :=
      List.set_append_left k v (by rw [hiv]; exact hk16)
    rw [hset] at hcontra
    have hivl : (iv.set k v).length = 16 := by rw [List.length_set, hiv]
    have hivb2 : IsBytes (iv.set k v) := isBytes_set k v hivb hv
    unfold decrypt at hcontra
    rw [if_neg (by
      push_neg
      rw [List.length_append, hivl, hB.1]
      constructor
      · omega
      · rcases hpaddvd with ⟨m, hm⟩
        omega)] at hcontra
    rw [List.take_left' hivl, List.drop_left' hivl] at hcontra
    obtain ⟨p, hp1, hp16, hple, hmod, hrlen, hqeq⟩ := pkcs7Unpad_some _ _ hcontra
    have hQ'len : (cbcDecBlocks (scheduleOf password) (iv.set k v)
        (cbcEncBlocks (scheduleOf password) iv (pkcs7Pad pt))).length
        = (pkcs7Pad pt).length := by
      rw [(cbcDecBlocks_valid (scheduleOf password) hrk hrkb _ (iv.set k v)
        hBdvd hB.2 hivl hivb2).1, hB.1]
    have hp_val : p = 16 - pt.length % 16 := by
      have h1 := hQ'len
      rw [pkcs7Pad_length] at h1
      omega
    have hpad_eq : cbcDecBlocks (scheduleOf password) (iv.set k v)
        (cbcEncBlocks (scheduleOf password) iv (pkcs7Pad pt)) = pkcs7Pad pt := by
      rw [hqeq, hp_val]
      rfl
    have hiveq : iv.set k v = iv :=
      cbcDecBlocks_inj_prev (scheduleOf password) hrk hrkb _ (iv.set k v) iv
        hBne hBdvd hB.2 hivl hiv (by rw [hpad_eq, horig])
    apply hvne
    have h1 : (iv.set k v).getD k 0 = v := getD_set_self (by rw [hiv]; exact hk16)
    rw [hiveq] at h1
    rw [getD_append_left (by rw [hiv]; exact hk16)]
    exact h1.symm
  · -- the changed byte is inside a ciphertext block
    have hset : (iv ++ cbcEncBlocks (scheduleOf password) iv (pkcs7Pad pt)).set k v
        = iv ++ (cbcEncBlocks (scheduleOf password) iv (pkcs7Pad pt)).set (k - iv.length) v :=
      List.set_append_right k v (by rw [hiv]; exact hk16)
    rw [hiv] at hset
    rw [hset] at hcontra
    have hBl' : ((cbcEncBlocks (scheduleOf password) iv (pkcs7Pad pt)).set (k - 16) v).length
        = (pkcs7Pad pt).length := by
      rw [List.length_set, hB.1]
    have hBb' : IsBytes ((cbcEncBlocks (scheduleOf password) iv (pkcs7Pad pt)).set (k - 16) v) :=
      isBytes_set _ v hB.2 hv
    unfold decrypt at hcontra
    rw [if_neg (by
      push_neg
      rw [List.length_append, hiv, hBl']
      constructor
      · omega
      · rcases hpaddvd with ⟨m, hm⟩
        omega)] at hcontra
    rw [List.take_left' hiv, List.drop_left' hiv] at hcontra
    obtain ⟨p, hp1, hp16, hple, hmod, hrlen, hqeq⟩ := pkcs7Unpad_some _ _ hcontra
    have hQ'len : (cbcDecBlocks (scheduleOf password) iv
        ((cbcEncBlocks (scheduleOf password) iv (pkcs7Pad pt)).set (k - 16) v)).length
        = (pkcs7Pad pt).length := by
      rw [(cbcDecBlocks_valid (scheduleOf password) hrk hrkb _ iv
        (by rw [hBl']; exact hpaddvd) hBb' hiv hivb).1, hBl']
    have hp_val : p = 16 - pt.length % 16 := by
      have h1 := hQ'len
      rw [pkcs7Pad_length] at h1
      omega
    have hpad_eq : cbcDecBlocks (scheduleOf password) iv
        ((cbcEncBlocks (scheduleOf password) iv (pkcs7Pad pt)).set (k - 16) v)
        = pkcs7Pad pt := by
      rw [hqeq, hp_val]
      rfl
    have hBeq : (cbcEncBlocks (scheduleOf password) iv (pkcs7Pad pt)).set (k - 16) v
        = cbcEncBlocks (scheduleOf password) iv (pkcs7Pad pt) :=
      cbcDecBlocks_inj_ct (scheduleOf password) hrk hrkb _ _ iv
        (by rw [hBl', hB.1]) (by rw [hBl']; exact hpaddvd) hBb' hB.2 hiv
        (by rw [hpad_eq, horig])
    apply hvne
    have hklt : k - 16 < (cbcEncBlocks (scheduleOf password) iv (pkcs7Pad pt)).length := by
      rw [List.length_append, hiv] at hk
      omega
    have h1 : ((cbcEncBlocks (scheduleOf password) iv (pkcs7Pad pt)).set (k - 16) v).getD
        (k - 16) 0 = v := getD_set_self (by exact hklt)
    rw [hBeq] at h1
    rw [getD_append_right (by rw [hiv]; exact hk16), hiv]
    exact h1.symm

/-- Witness for C5: flipping the first IV byte of a concrete valid
ciphertext makes decryption no longer return the original plaintext. -/
theorem claim_C5_witness :
    decrypt (scheduleOf []) ((List.replicate 16 0
      ++ cbcEncBlocks (scheduleOf []) (List.replicate 16 0) (pkcs7Pad [])).set 0 1)
      ≠ some [] :=
  claim_C5_tamper [] [] (List.replicate 16 0) (by decide) (by decide) (by decide)
    0 1 (by decide) _ rfl (by decide) (by decide)

/-- C9: for every byte sequence d, `bytesToHex d` has exactly two characters
per byte, every character is a lowercase ASCII hex digit, and `hexToBytes`
is a left inverse: `hexToBytes (bytesToHex d) = d`. -/
theorem claim_C9_hex_codec (d : List Nat) (hb : IsBytes d) :
    (bytesToHex d).length = 2 * d.length ∧
    (∀ c ∈ bytesToHex d,
      c ∈ "0123456789abcdef".toList) ∧
    hexToBytes (bytesToHex d) = d :=
  ⟨bytesToHex_length d, bytesToHex_digits d hb, hexToBytes_bytesToHex d hb⟩

/-- Witness for C9 at the concrete byte sequence `[0, 171, 255]`. -/
theorem claim_C9_witness :
    (bytesToHex [0, 171, 255]).length = 2 * 3 ∧
    (∀ c ∈ bytesToHex [0, 171, 255],
      c ∈ "0123456789abcdef".toList) ∧
    hexToBytes (bytesToHex [0, 171, 255]) = [0, 171, 255] :=
  claim_C9_hex_codec [0, 171, 255] (by decide)
